import Mathlib

/-!
Verification of the retrieval-and-ranking core of the Testing-Automation-System
repository.  The Python services are shallowly embedded: floats are modelled as
rationals, dictionaries as functions or association lists, and LLM / network
effects as explicit outcome parameters.  Each embedded definition mirrors one
Python function of the repository (named in its doc comment).
-/

namespace TAS

/-! ## Result cache (`JavascriptPlaywrightMethods-RAG/app/core/cache.py`)

`SEARCH_CACHE` is a dict from string key to `(timestamp, value)`.  We model the
dict as a function `String → Option (ℚ × V)`, the current clock as an explicit
`now` argument, and the TTL as a parameter. -/

/-- One cache state: dictionary from key to `(inserted_at, value)`. -/
def Cache (V : Type) : Type := String → Option (ℚ × V)

/-- Embeds `cache_set`: `SEARCH_CACHE[key] = (time.time(), value)` —
unconditional overwrite. -/
def cache_set {V : Type} (c : Cache V) (now : ℚ) (key : String) (value : V) :
    Cache V :=
  fun k => if k = key then some (now, value) else c k

/-- Embeds `cache_get`: returns the stored value iff the entry exists and
`now - ts > CACHE_TTL_SECONDS` fails; an expired entry is deleted.  The result
is the returned value (`none` = miss) together with the cache state after the
read (reads can delete). -/
def cache_get {V : Type} (c : Cache V) (ttl : ℚ) (now : ℚ) (key : String) :
    Option V × Cache V :=
  match c key with
  | none => (none, c)
  | some (ts, value) =>
      if now - ts > ttl then
        (none, fun k => if k = key then none else c k)
      else
        (some value, c)

/-- Default `CACHE_TTL_SECONDS = 60 * 5` from `app/core/config.py`. -/
def CACHE_TTL_SECONDS : ℚ := 60 * 5

/-! ## String helpers shared by several services

The services manipulate strings with Python `str` methods; these are modelled
over character lists (matching Python semantics for the ASCII text the
pipeline handles). -/

/-- Prefix test on character lists. -/
def isPrefixCl : List Char → List Char → Bool
  | [], _ => true
  | _ :: _, [] => false
  | a :: as, b :: bs => a = b && isPrefixCl as bs

/-- Substring test on character lists. -/
def containsSubCl (hay sub : List Char) : Bool :=
  match hay with
  | [] => isPrefixCl sub []
  | _ :: rest => isPrefixCl sub hay || containsSubCl rest sub

/-- Python substring test `sub in s`. -/
def containsSub (s sub : String) : Bool :=
  containsSubCl s.toList sub.toList

/-- Python `str.strip()`: remove leading and trailing whitespace. -/
def pyStrip (s : String) : String :=
  String.mk
    (((s.toList.dropWhile Char.isWhitespace).reverse.dropWhile
        Char.isWhitespace).reverse)

/-- ASCII uppercase of one character (the replies handled by the services are
ASCII; Python `str.upper()` agrees there). -/
def pyUpperChar (c : Char) : Char :=
  if 'a' ≤ c ∧ c ≤ 'z' then Char.ofNat (c.toNat - 32) else c

/-- Python `str.upper()` on ASCII text. -/
def pyUpper (s : String) : String := String.mk (s.toList.map pyUpperChar)

/-- Split on a single separator character, keeping empty pieces — Python
`s.split(sep)` for a one-character `sep` (also used for line splitting, which
Python does per `splitlines`; the replies here are `"\n"`-separated). -/
def splitOnCharAux (sep : Char) : List Char → List Char → List String
  | [], acc => [String.mk acc.reverse]
  | c :: rest, acc =>
      if c = sep then String.mk acc.reverse :: splitOnCharAux sep rest []
      else splitOnCharAux sep rest (c :: acc)

/-- Split a string on a separator character. -/
def splitOnChar (sep : Char) (s : String) : List String :=
  splitOnCharAux sep s.toList []

/-- Outcome of one `model.generate_content` invocation: the call raised, or it
returned a response whose `.text` is the given string. -/
inductive LLMAttempt
  | err : LLMAttempt
  | reply : String → LLMAttempt
deriving DecidableEq, Repr

/-! ## Dedupe verifier (`TestCases-RAG/app/services/dedupe_verifier.py`)

`llm_verify_duplicate` short-circuits on an empty candidate/match list or a
missing API key, then loops `for attempt in range(max(1, settings.GEMINI_RETRIES))`
calling Gemini; the reply is `(response.text or "").strip().upper()` and is
tested for the substrings "DUPLICATE" then "UNIQUE".  A raising attempt or an
unclassifiable reply falls through to the next attempt; after the loop the
function returns `False`. -/

/-- Embeds the retry loop of `llm_verify_duplicate` over the listed attempt
outcomes (one list entry per loop iteration). -/
def verifyAttempts : List LLMAttempt → Bool
  | [] => false
  | LLMAttempt.err :: rest => verifyAttempts rest
  | LLMAttempt.reply t :: rest =>
      let text := pyUpper (pyStrip t)
      if containsSub text "DUPLICATE" then true
      else if containsSub text "UNIQUE" then false
      else verifyAttempts rest

/-- Embeds `llm_verify_duplicate`.  `attempts i` is the outcome of the
`i`-th Gemini call; `True` means DUPLICATE, `False` means UNIQUE. -/
def llm_verify_duplicate (candidateNonempty topMatchesNonempty apiKeySet
    modelInitOk : Bool) (retries : ℕ) (attempts : ℕ → LLMAttempt) : Bool :=
  if ¬candidateNonempty ∨ ¬topMatchesNonempty then false
  else if ¬apiKeySet then false
  else if ¬modelInitOk then false
  else verifyAttempts ((List.range (max 1 retries)).map attempts)

/-- Embeds the dedupe block of the upload route
(`TestCases-RAG/app/routes/upload.py`): a record is skipped iff the verdict is
DUPLICATE; an exception anywhere in the dedupe pipeline (`outcome = none`)
logs and continues ingestion, so the record is inserted. -/
def dedupeInsertDecision (outcome : Option Bool) : Bool :=
  match outcome with
  | none => true
  | some isDup => !isDup

/-- A reply that the verifier cannot classify: neither token occurs in the
uppercased, stripped text. -/
def unclassifiable (a : LLMAttempt) : Prop :=
  match a with
  | LLMAttempt.err => True
  | LLMAttempt.reply t =>
      containsSub (pyUpper (pyStrip t)) "DUPLICATE" = false ∧
        containsSub (pyUpper (pyStrip t)) "UNIQUE" = false

/-! ## Candidate scorer (`TestCases-RAG/app/services/ranking.py`, variant A)

`build_candidates` iterates the expansion tokens adding `0.10` for a text-token
hit and `0.15` for a keyword hit, clamps the total at
`max(len(expansion_tokens), 1) * 0.15`, and sets
`score_v1 = 0.60 * base_score + 0.25 * semantic_max + token_boost`. -/

/-- One iteration of the `for tok in expansion_tokens` boost loop. -/
def tokenBoostStep (textTokens keywords : List String) (acc : ℚ)
    (tok : String) : ℚ :=
  let acc1 := if tok ∈ textTokens then acc + 1/10 else acc
  if tok ∈ keywords then acc1 + 3/20 else acc1

/-- The boost accumulated by the loop, before clamping. -/
def rawTokenBoost (expansionTokens textTokens keywords : List String) : ℚ :=
  expansionTokens.foldl (tokenBoostStep textTokens keywords) 0

/-- Embeds `token_boost` including the clamp
`min(token_boost, max(len(expansion_tokens), 1) * 0.15)`. -/
def token_boost (expansionTokens textTokens keywords : List String) : ℚ :=
  min (rawTokenBoost expansionTokens textTokens keywords)
    ((max expansionTokens.length 1 : ℕ) * (3/20))

/-- Embeds the variant-A formula
`score_v1 = 0.60 * base_score + 0.25 * semantic_max + token_boost`,
with `semantic_max = max(sim_desc, sim_steps, sim_summary)`. -/
def score_v1 (base_score simDesc simSteps simSummary : ℚ)
    (expansionTokens textTokens keywords : List String) : ℚ :=
  3/5 * base_score + 1/4 * max simDesc (max simSteps simSummary) +
    token_boost expansionTokens textTokens keywords

/-- Per-token boost as the spec phrases it: `+0.10` when the token occurs in
the text tokens plus `+0.15` when it occurs in the keywords. -/
def specPerTokenBoost (textTokens keywords : List String) (tok : String) : ℚ :=
  (if tok ∈ textTokens then 1/10 else 0) + (if tok ∈ keywords then 3/20 else 0)

/-! ## Display items and Python-style rounding -/

/-- Display item (`SearchResultItem` of `TestCases-RAG/app/models/schemas.py`).
Only `id` and `probability` drive control flow; the remaining display fields
participate only in (pydantic) structural equality and are bundled as `rest`. -/
structure Item where
  id : String
  probability : ℚ
  rest : String
deriving DecidableEq, Repr

/-- Python `round(q, 2)` modelled over ℚ as round-half-up to two decimals
(Python rounds half to even; the two agree except on exact half-cent values,
which the pipeline never produces on the compared paths). -/
def round2 (q : ℚ) : ℚ := (((q * 100 + 1/2).floor : ℤ) : ℚ) / 100

/-- Python `p or d` on a float `p`: `d` is substituted exactly when `p` is
falsy, i.e. equal to `0`. -/
def pyOr (p d : ℚ) : ℚ := if p = 0 then d else p

/-! ## Final intent ranker (`TestCases-RAG/app/services/finalRanking.py`)

`final_llm_rerank` early-exits when the rerank is disabled, the key is
missing, or `len(results) <= 1`; otherwise it prompts Gemini, parses
`<id> | <score>` lines, overwrites the `probability` of matching items
(mutating the shared objects), fills up to `top_k` from the remaining
original items, and returns the collected list. -/

/-- Leading-numbering removal `re.sub(r"^(\d+[\.\)]\s*)", "", l)` on the
character list of a line. -/
def stripNumbering (cs : List Char) : List Char :=
  let digits := cs.takeWhile Char.isDigit
  if digits.isEmpty then cs
  else
    match cs.drop digits.length with
    | c :: rest =>
        if c = '.' ∨ c = ')' then rest.dropWhile Char.isWhitespace else cs
    | [] => cs

/-- Leading-bullet removal `re.sub(r"^[\*\-]\s*", "", l)`. -/
def stripBullet (cs : List Char) : List Char :=
  match cs with
  | c :: rest =>
      if c = '*' ∨ c = '-' then rest.dropWhile Char.isWhitespace else cs
  | [] => cs

/-- Embeds `_safe_parse_lines` of `finalRanking.py`: split into lines, strip,
drop numbering and bullets, keep the nonempty results. -/
def safeParseLinesFinal (text : String) : List String :=
  ((splitOnChar '\n' text).map (fun l =>
      let l1 := pyStrip l
      if l1.toList.isEmpty then ""
      else String.mk (stripBullet (stripNumbering l1.toList)))).filter
    (fun s => !s.toList.isEmpty)

/-- Digit list to its value, as a rational. -/
def digitsVal (cs : List Char) : ℚ :=
  cs.foldl (fun a c => a * 10 + ((c.toNat - '0'.toNat : ℕ) : ℚ)) 0

/-- Models Python `float(s)` on the decimal literals the final ranker expects
(`[+-]? digits [. digits]?`); anything else is a parse failure, which the
source skips via its `except` branch.  (Python additionally accepts exotic
forms such as exponents; replies using them are treated as unparsable here.) -/
def parseDecimal (s : String) : Option ℚ :=
  let cs := s.toList
  let signed : ℚ × List Char :=
    match cs with
    | '-' :: r => (-1, r)
    | '+' :: r => (1, r)
    | r => (1, r)
  let intPart := signed.2.takeWhile Char.isDigit
  let rest := signed.2.drop intPart.length
  match rest with
  | [] => if intPart.isEmpty then none else some (signed.1 * digitsVal intPart)
  | '.' :: frac =>
      if frac.all Char.isDigit ∧ ¬(intPart.isEmpty ∧ frac.isEmpty) then
        some (signed.1 *
          (digitsVal intPart + digitsVal frac / ((10 : ℚ) ^ frac.length)))
      else none
  | _ => none

/-- Embeds the parse loop of `final_llm_rerank`: split each parsed line on
`"|"`, require exactly two parts, parse the score and clamp it with
`max(0.0, min(100.0, score))`. -/
def parseRankedItems (raw : String) : List (String × ℚ) :=
  (safeParseLinesFinal raw).filterMap (fun line =>
    match (splitOnChar '|' line).map pyStrip with
    | [idStr, scoreText] =>
        match parseDecimal scoreText with
        | some sc => some (idStr, max 0 (min 100 sc))
        | none => none
    | _ => none)

/-- In-place probability overwrite `item.probability = ...`. -/
def setProb (it : Item) (p : ℚ) : Item := { it with probability := p }

/-- Embeds the dict comprehension `id_map = {str(r.id): r for r in results}`
as a map from id to the position of the object it refers to (a later item
with the same id overwrites an earlier one, as in a dict). -/
def idMapFn : List Item → String → Option ℕ
  | [], _ => none
  | it :: rest, s =>
      match idMapFn rest s with
      | some j => some (j + 1)
      | none => if s = it.id then some 0 else none

/-- The current values held by `final_results`, which stores references into
`results`; `refs` are the referenced positions. -/
def finalVals (store : List Item) (refs : List ℕ) : List Item :=
  refs.filterMap store.get?

/-- Embeds the matched-items loop of `final_llm_rerank`: for each parsed
`(id, score)` with `id in id_map`, mutate the referenced object and append the
reference.  State is `(store, refs)` where `store` is the `results` list and
`refs` the positions referenced by `final_results`. -/
def applyRanked (store : List Item) (refs : List ℕ) :
    List (String × ℚ) → List Item × List ℕ
  | [] => (store, refs)
  | (i, sc) :: rest =>
      match idMapFn store i with
      | some j =>
          match store.get? j with
          | some it =>
              applyRanked (store.set j (setProb it (round2 sc)))
                (refs ++ [j]) rest
          | none => applyRanked store refs rest
      | none => applyRanked store refs rest

/-- Embeds the fallback-fill loop of `final_llm_rerank`: walk the (possibly
mutated) `results` objects in order; an item not already in `final_results`
(pydantic compares by field value) gets
`probability = round(r.probability or 50.0, 2)` and is appended; the loop
breaks once `top_k` items are collected.  The loop is rendered over values:
this is faithful because an object, once in `final_results`, is never mutated
again — a visited object already in the list is skipped before the write, and
the write touches only the visited object. -/
def fillLoop (topK : ℕ) : List Item → List Item → List Item
  | final, [] => final
  | final, r :: rest =>
      if final.length = topK then final
      else if r ∈ final then fillLoop topK final rest
      else
        fillLoop topK (final ++ [setProb r (round2 (pyOr r.probability 50))])
          rest

/-- Result of the final LLM stage: the returned items plus whether
`model.generate_content` was invoked at all. -/
structure RerankOutcome where
  items : List Item
  llmCalled : Bool
deriving DecidableEq, Repr

/-- Default `TOP_K = 3` (`app/core/config.py`). -/
def TOP_K : ℕ := 3

/-- Embeds `final_llm_rerank`.  `reply = none` models a raising
`generate_content`; `modelInitOk = false` models `GenerativeModel` failing to
construct (no call issued). -/
def final_llm_rerank (rerankEnabled apiKeySet modelInitOk : Bool)
    (reply : Option String) (results : List Item) (topK : ℕ) : RerankOutcome :=
  if ¬rerankEnabled ∨ ¬apiKeySet ∨ results.isEmpty ∨ results.length ≤ 1 then
    ⟨results.take topK, false⟩
  else if ¬modelInitOk then ⟨results.take topK, false⟩
  else
    match reply with
    | none => ⟨results.take topK, true⟩
    | some raw =>
        let rankedAll := parseRankedItems (pyStrip raw)
        if rankedAll.isEmpty then ⟨results.take topK, true⟩
        else
          let ranked := rankedAll.take topK
          let s1 := applyRanked results [] ranked
          let matchedVals := finalVals s1.1 s1.2
          if s1.2.length < topK then ⟨fillLoop topK matchedVals s1.1, true⟩
          else ⟨matchedVals, true⟩

/-! ## Candidate selection and the search route
(`TestCases-RAG/app/services/ranking.py`, `TestCases-RAG/app/routes/search.py`) -/

/-- Candidate dict built by `build_candidates`: the two variant scores plus the
payload display fields (inert here, bundled as `rest`). -/
structure Candidate where
  id : String
  localScoreV1 : ℚ
  localScoreV2 : ℚ
  rest : String
deriving DecidableEq, Repr

/-- A candidate together with its `local_score_norm` assigned by
`_normalize_scores`. -/
structure NormedCandidate where
  cand : Candidate
  norm : ℚ
deriving DecidableEq, Repr

/-- `numpy` minimum of the scores (`scores.min()`), for a nonempty list given
as head and tail. -/
def scoresMin (s : ℚ) (rest : List ℚ) : ℚ := rest.foldl min s

/-- `numpy` maximum of the scores (`scores.max()`). -/
def scoresMax (s : ℚ) (rest : List ℚ) : ℚ := rest.foldl max s

/-- Embeds `_normalize_scores`: min-max normalization of the chosen score over
the candidate set, with every normalized score set to `1.0` when the range is
at most `1e-12`. -/
def normalizeScores (cands : List Candidate) (key : Candidate → ℚ) :
    List NormedCandidate :=
  match cands with
  | [] => []
  | c0 :: rest =>
      let minS := scoresMin (key c0) (rest.map key)
      let maxS := scoresMax (key c0) (rest.map key)
      if maxS - minS > 1 / 10 ^ 12 then
        (c0 :: rest).map (fun c => ⟨c, (key c - minS) / (maxS - minS)⟩)
      else
        (c0 :: rest).map (fun c => ⟨c, 1⟩)

/-- Stable insertion for a descending sort: `x` is placed before the first
element of strictly smaller key (Python `list.sort(key=..., reverse=True)` is
stable; `x` comes after its equals, which preceded it in the input). -/
def insertDescBy {α : Type} (f : α → ℚ) (x : α) : List α → List α
  | [] => [x]
  | y :: ys => if f y < f x then x :: y :: ys else y :: insertDescBy f x ys

/-- Stable descending sort by a rational key, modelling
`candidates.sort(key=..., reverse=True)`. -/
def sortDescBy {α : Type} (f : α → ℚ) : List α → List α
  | [] => []
  | x :: xs => insertDescBy f x (sortDescBy f xs)

/-- Default `CANDIDATES_TO_RETRIEVE = 15` (`app/core/config.py`). -/
def CANDIDATES_TO_RETRIEVE : ℕ := 15

/-- Default `FINAL_RESULTS = 5` (`app/core/config.py`). -/
def FINAL_RESULTS : ℕ := 5

/-- Embeds `select_final_results`: normalize, sort descending by the variant
score, truncate.  In this service the `rerank_with_gemini` branch always falls
into its `except` (the async function is called without `await`, so slicing
the coroutine raises `TypeError`), after which the code returns
`top_candidates[:final_results]`; the branch is therefore score-order
preserving and is embedded as the plain truncation. -/
def select_final_results (cands : List Candidate) (variant : String) :
    List NormedCandidate :=
  match cands with
  | [] => []
  | _ =>
      let key : Candidate → ℚ :=
        if pyUpper variant = "A" then Candidate.localScoreV1
        else Candidate.localScoreV2
      let normed := normalizeScores cands key
      let sorted := sortDescBy (fun nc => key nc.cand) normed
      (sorted.take CANDIDATES_TO_RETRIEVE).take FINAL_RESULTS

/-- One pass of the response-mapping loop of the search route, carrying the
1-based `rank`. -/
def provisionalAux (total : ℚ) : ℚ → List NormedCandidate → List Item
  | _, [] => []
  | rank, nc :: rest =>
      { id := nc.cand.id,
        probability :=
          round2 ((3/5 * nc.norm + 2/5 * ((total - rank + 1) / total)) * 100),
        rest := nc.cand.rest } :: provisionalAux total (rank + 1) rest

/-- Embeds the response-mapping loop of the search route: item `rank` (from 1)
of `final_list` receives the provisional probability
`round((0.6 * norm_sim + 0.4 * rank_weight) * 100, 2)` with
`rank_weight = (total - rank + 1) / total`, `total = max(len(final_list), 1)`. -/
def provisionalItems (finalList : List NormedCandidate) : List Item :=
  provisionalAux ((max finalList.length 1 : ℕ) : ℚ) 1 finalList

/-- The search response as assembled at the end of the route. -/
structure SearchResponse where
  query : String
  feature_filter : Option String
  results_count : ℕ
  results : List Item
  from_cache : Bool
  ranking_variant : String
deriving DecidableEq, Repr

/-- Embeds the search route from candidate scoring to the response (steps
4–6 of `search_test_cases`): select, map to items, final LLM rerank, sort by
`x.probability or 0` descending, assemble.  Returns the response together with
whether the final LLM stage issued a Gemini call. -/
def searchRespond (rawQuery : String) (featureFilter : Option String)
    (variant : String) (cands : List Candidate)
    (rerankEnabled apiKeySet modelInitOk : Bool) (reply : Option String) :
    SearchResponse × Bool :=
  let finalList := select_final_results cands variant
  let items := provisionalItems finalList
  let out := final_llm_rerank rerankEnabled apiKeySet modelInitOk reply items
    TOP_K
  let sortedItems := sortDescBy (fun it => pyOr it.probability 0) out.items
  ({ query := rawQuery, feature_filter := featureFilter,
     results_count := sortedItems.length, results := sortedItems,
     from_cache := false, ranking_variant := variant }, out.llmCalled)

/-! ## Pairwise reranker (`JavascriptPlaywrightMethods-RAG/app/services/rerank.py`) -/

/-- Method candidate dict: only `_id` drives the reranker; the other fields
are bundled as `rest`. -/
structure MCand where
  _id : String
  rest : String
deriving DecidableEq, Repr

/-- Character class of `re.sub(r"^[\-\*\d\.\)\s]+", "", l)`. -/
def rerankBulletChar (c : Char) : Bool :=
  c = '-' ∨ c = '*' ∨ c = '.' ∨ c = ')' ∨ c.isDigit ∨ c.isWhitespace

/-- Embeds `safe_parse_lines` of `rerank.py`: split into lines, strip, remove
any leading run of bullet characters, keep the nonempty results. -/
def safeParseLinesRerank (text : String) : List String :=
  ((splitOnChar '\n' text).map (fun l =>
      String.mk ((pyStrip l).toList.dropWhile rerankBulletChar))).filter
    (fun s => !s.toList.isEmpty)

/-- Python `tok.strip(".,-_ ")`: remove those characters from both ends. -/
def stripPunct (s : String) : String :=
  let isP : Char → Bool := fun c =>
    c = '.' ∨ c = ',' ∨ c = '-' ∨ c = '_' ∨ c = ' '
  String.mk (((s.toList.dropWhile isP).reverse.dropWhile isP).reverse)

/-- Embeds the id-extraction loop: the first whitespace-delimited token of
each parsed line (`l.split()[0]`), stripped of punctuation; empty results are
skipped. -/
def extractOrderedIds (text : String) : List String :=
  (safeParseLinesRerank text).filterMap (fun l =>
    let tok := String.mk (l.toList.takeWhile (fun c => !c.isWhitespace))
    let cid := stripPunct tok
    if cid.toList.isEmpty then none else some cid)

/-- Embeds `id_to_candidate = {str(c["_id"]): c for c in candidates}` (a later
candidate with the same id overwrites an earlier one). -/
def idToCandidate : List MCand → String → Option MCand
  | [], _ => none
  | c :: rest, s =>
      match idToCandidate rest s with
      | some c' => some c'
      | none => if s = c._id then some c else none

/-- Embeds the reorder loop: pick the candidate for each extracted id not yet
seen, in id order, threading `seen_ids`.  Returns the picked list and the
final `seen_ids`. -/
def buildOrdered (lookup : String → Option MCand) :
    List String → List String → List MCand × List String
  | [], seen => ([], seen)
  | cid :: rest, seen =>
      match lookup cid with
      | some c =>
          if cid ∈ seen then buildOrdered lookup rest seen
          else
            let r := buildOrdered lookup rest (cid :: seen)
            (c :: r.1, r.2)
      | none => buildOrdered lookup rest seen

/-- Embeds `rerank_with_gemini`: disabled/missing-key/empty short-circuits,
model-init failure and a raising call return the input unchanged; otherwise
parse ids from the reply and emit picked candidates followed by the unseen
ones in input order. -/
def rerank_with_gemini (rerankEnabled apiKeySet modelInitOk : Bool)
    (reply : Option String) (cands : List MCand) : List MCand :=
  if ¬rerankEnabled ∨ ¬apiKeySet then cands
  else if cands.isEmpty then cands
  else if ¬modelInitOk then cands
  else
    match reply with
    | none => cands
    | some raw =>
        let ids := extractOrderedIds (pyStrip raw)
        let lookup := idToCandidate cands
        let r := buildOrdered lookup ids []
        r.1 ++ cands.filter (fun c => decide (c._id ∉ r.2))

/-! ## Embeddings (`TestCases-RAG/app/services/embeddings.py`)

The encoder is external; it is passed in as `encode : String → List ℚ`, with
`encode t = []` standing for the encode-failure branch of `embed_text`
(which logs and returns `[]`). -/

/-- Split on whitespace runs, Python `str.split()`. -/
def splitWsAux : List Char → List Char → List String
  | [], cur => if cur.isEmpty then [] else [String.mk cur.reverse]
  | c :: rest, cur =>
      if c.isWhitespace then
        if cur.isEmpty then splitWsAux rest []
        else String.mk cur.reverse :: splitWsAux rest []
      else splitWsAux rest (c :: cur)

/-- Join with single spaces, Python `" ".join(words)`. -/
def joinSpace : List String → String
  | [] => ""
  | [w] => w
  | w :: rest => w ++ " " ++ joinSpace rest

/-- Embeds `_normalize_text`: `" ".join(text.strip().split())`. -/
def normalizeWsText (t : String) : String :=
  joinSpace (splitWsAux t.toList [])

/-- Embeds `embed_text`: whitespace-normalize, then encode. -/
def embed_text (encode : String → List ℚ) (t : String) : List ℚ :=
  encode (normalizeWsText t)

/-- Element-wise sum of two vectors of equal length (`none` on a length
mismatch, where `numpy` would raise). -/
def addVec : List ℚ → List ℚ → Option (List ℚ)
  | [], [] => some []
  | a :: as, b :: bs => (addVec as bs).map (fun r => (a + b) :: r)
  | _, _ => none

/-- Embeds `np.mean(vectors, axis=0)` on a nonempty list: element-wise mean
when all lengths agree, `[]` on the ragged-input exception path. -/
def meanVecs : List (List ℚ) → List ℚ
  | [] => []
  | v :: vs =>
      match vs.foldl (fun acc w => acc.bind (fun s => addVec s w)) (some v) with
      | some s => s.map (fun x => x / ((vs.length : ℚ) + 1))
      | none => []

/-- Embeds `embed_multivector`: the three field embeddings plus
`main_vector`, the mean of those that are nonempty (or `encode("")` when all
three are empty). -/
def embed_multivector (encode : String → List ℚ)
    (description steps summary : String) :
    List ℚ × List ℚ × List ℚ × List ℚ :=
  let desc_emb := embed_text encode description
  let steps_emb := embed_text encode steps
  let summary_emb := embed_text encode summary
  let vectors := [desc_emb, steps_emb, summary_emb].filter
    (fun v => !v.isEmpty)
  let main_vector :=
    if vectors.isEmpty then embed_text encode "" else meanVecs vectors
  (desc_emb, steps_emb, summary_emb, main_vector)

/-- The four-vector invariant as the spec states it: the four embedding
fields have identical non-zero dimensionality, or all four are empty. -/
def fourVectorInvariant (r : List ℚ × List ℚ × List ℚ × List ℚ) : Prop :=
  (r.1.length ≠ 0 ∧ r.2.1.length = r.1.length ∧
    r.2.2.1.length = r.1.length ∧ r.2.2.2.length = r.1.length) ∨
  (r.1 = [] ∧ r.2.1 = [] ∧ r.2.2.1 = [] ∧ r.2.2.2 = [])

/-! ## LLM gateway
(`PythonSeleniumMethods-RAG/app/services/gemini_semaphore.py`) -/

/-- Default `GEMINI_RETRIES = 2` (`app/core/config.py`). -/
def GEMINI_RETRIES : ℕ := 2

/-- Embeds `run_gemini_call`: acquire the semaphore, invoke `func` once, and
re-raise any error (`except Exception: raise` — there is no retry loop in the
gateway).  `funcStream n` is the outcome the callable would produce on its
`n`-th invocation; the result is the number of invocations actually made and
the surfaced response (`none` = the error reached the caller). -/
def run_gemini_call (funcStream : ℕ → LLMAttempt) : ℕ × Option String :=
  match funcStream 0 with
  | LLMAttempt.err => (1, none)
  | LLMAttempt.reply t => (1, some t)

/-- Semaphore events emitted by one pass through `run_gemini_call`. -/
inductive GwEvent
  | acq | call | rel
deriving DecidableEq, Repr

/-- The semaphore events of one pass through `run_gemini_call`: acquire,
invoke, release. -/
def gwTriple : List GwEvent := [GwEvent.acq, GwEvent.call, GwEvent.rel]

/-- Embeds the caller-side retry loop of the method-flavor dedupe verifier
(`JavascriptSeleniumMethods-RAG/app/services/dedupe_verifier.py`), which calls
`run_gemini_call` once per loop iteration: returns the semaphore event trace
and the verdict.  Each iteration contributes one acquire/call/release
triple. -/
def verifyViaGateway : List LLMAttempt → List GwEvent × Bool
  | [] => ([], false)
  | a :: rest =>
      match a with
      | LLMAttempt.err =>
          let r := verifyViaGateway rest
          (gwTriple ++ r.1, r.2)
      | LLMAttempt.reply t =>
          let text := pyUpper (pyStrip t)
          if containsSub text "DUPLICATE" then (gwTriple, true)
          else if containsSub text "UNIQUE" then (gwTriple, false)
          else
            let r := verifyViaGateway rest
            (gwTriple ++ r.1, r.2)

/-- Number of semaphore acquisitions in a gateway event trace. -/
def acquireCount (tr : List GwEvent) : ℕ :=
  (tr.filter (fun e => e = GwEvent.acq)).length

/-! ## System-wide concurrency model (claim C10)

`GEMINI_SEMAPHORE = asyncio.Semaphore(GEMINI_MAX_CONCURRENCY)` guards calls
made through `run_gemini_call`.  The TestCases-RAG service, however, invokes
`model.generate_content` directly (its `dedupe_verifier.py` and
`finalRanking.py` import no semaphore), so the system also has ungated LLM
calls; `directStart` models such a call site. -/

/-- Default `GEMINI_MAX_CONCURRENCY = 4` (`gemini_semaphore.py`). -/
def GEMINI_MAX_CONCURRENCY : ℕ := 4

/-- Instantaneous system state: tasks holding the gateway semaphore, and
in-flight LLM calls issued without it. -/
structure SysState where
  gatewayHolders : ℕ
  directCalls : ℕ
deriving DecidableEq, Repr

/-- Atomic scheduler actions: a gateway call acquires (suspending — no state
transition — while the semaphore is exhausted) and releases; an ungated call
site starts and finishes an LLM call unconditionally. -/
inductive SysAction
  | gwAcquire | gwRelease | directStart | directFinish
deriving DecidableEq, Repr

/-- One scheduler step; `none` when the action cannot fire in this state. -/
def sysStep (s : SysState) : SysAction → Option SysState
  | SysAction.gwAcquire =>
      if s.gatewayHolders < GEMINI_MAX_CONCURRENCY then
        some { s with gatewayHolders := s.gatewayHolders + 1 }
      else none
  | SysAction.gwRelease =>
      if 0 < s.gatewayHolders then
        some { s with gatewayHolders := s.gatewayHolders - 1 }
      else none
  | SysAction.directStart =>
      some { s with directCalls := s.directCalls + 1 }
  | SysAction.directFinish =>
      if 0 < s.directCalls then
        some { s with directCalls := s.directCalls - 1 }
      else none

/-- Run a sequence of actions from a state. -/
def runSys (s : SysState) : List SysAction → Option SysState
  | [] => some s
  | a :: rest => (sysStep s a).bind (fun s' => runSys s' rest)

/-- In-flight LLM calls: semaphore holders plus ungated calls. -/
def inFlightLLM (s : SysState) : ℕ := s.gatewayHolders + s.directCalls

/-- An action of the gateway (a call passing through the semaphore). -/
def isGatewayAction (a : SysAction) : Bool :=
  a = SysAction.gwAcquire ∨ a = SysAction.gwRelease

/-- The matched part of the final ranker output as the spec describes it: for
each parsed `(id, score)` pair, the input item with that id, with the clamped
score written into `probability`. -/
def matchedItemsSpec (results : List Item) (ranked : List (String × ℚ)) :
    List Item :=
  ranked.filterMap (fun p =>
    (results.find? (fun r => r.id = p.1)).map
      (fun it => setProb it (round2 p.2)))

/-- The fallback-fill part as the spec describes it: the remaining original
items in input order, each carrying forward its previous probability (with 50
substituted when it is unset/zero), truncated to the remaining slots. -/
def fillItemsSpec (results : List Item) (matchedIds : List String) (n : ℕ) :
    List Item :=
  ((results.filter (fun r => decide (r.id ∉ matchedIds))).map
    (fun r => setProb r (round2 (pyOr r.probability 50)))).take n

/-!
# Theorems

All embedded definitions are above; the development's lemmas and the claim
theorems follow.
-/

/-! ## Cache lemmas (C3) -/

theorem cache_get_after_set_within_ttl {V : Type} (c : Cache V) (ttl : ℚ)
    (t now : ℚ) (k : String) (v : V) (h : now - t ≤ ttl) :
    (cache_get (cache_set c t k v) ttl now k).1 = some v := by
  simp [cache_get, cache_set, not_lt.mpr h]

theorem cache_get_after_set_expired {V : Type} (c : Cache V) (ttl : ℚ)
    (t now : ℚ) (k : String) (v : V) (h : now - t > ttl) :
    (cache_get (cache_set c t k v) ttl now k).1 = none ∧
      (cache_get (cache_set c t k v) ttl now k).2 k = none := by
  refine ⟨?_, ?_⟩ <;> simp [cache_get, cache_set, h]

theorem cache_set_overwrites {V : Type} (c : Cache V) (t : ℚ) (k : String)
    (v : V) : cache_set c t k v k = some (t, v) := by
  simp [cache_set]

/-! ## Dedupe verifier lemmas (C2) -/

theorem verifyAttempts_of_unclassifiable :
    ∀ l : List LLMAttempt, (∀ a ∈ l, unclassifiable a) →
      verifyAttempts l = false := by
  intro l
  induction l with
  | nil => intro _; rfl
  | cons a rest ih =>
      intro h
      have ha := h a (List.mem_cons_self a rest)
      have hrest := ih fun b hb => h b (List.mem_cons_of_mem a hb)
      cases a with
      | err => simpa [verifyAttempts] using hrest
      | reply t =>
          obtain ⟨h1, h2⟩ := ha
          simpa [verifyAttempts, h1, h2] using hrest

/-! ## Scoring lemmas (C4) -/

theorem rawTokenBoost_eq_sum (expansionTokens textTokens keywords :
    List String) :
    rawTokenBoost expansionTokens textTokens keywords =
      (expansionTokens.map (specPerTokenBoost textTokens keywords)).sum := by
  have key : ∀ (l : List String) (a : ℚ),
      l.foldl (tokenBoostStep textTokens keywords) a =
        a + (l.map (specPerTokenBoost textTokens keywords)).sum := by
    intro l
    induction l with
    | nil => intro a; simp
    | cons x xs ih =>
        intro a
        rw [List.foldl_cons, ih]
        simp only [List.map_cons, List.sum_cons]
        have : tokenBoostStep textTokens keywords a x =
            a + specPerTokenBoost textTokens keywords x := by
          unfold tokenBoostStep specPerTokenBoost
          by_cases h1 : x ∈ textTokens <;> by_cases h2 : x ∈ keywords <;>
            simp [h1, h2] <;> ring
        rw [this]; ring
  simpa using key expansionTokens 0

theorem token_boost_eq_clamped_sum (expansionTokens textTokens keywords :
    List String) :
    token_boost expansionTokens textTokens keywords =
      min ((expansionTokens.map (specPerTokenBoost textTokens keywords)).sum)
        ((expansionTokens.length : ℚ) * (3/20)) := by
  unfold token_boost
  rw [rawTokenBoost_eq_sum]
  rcases expansionTokens with _ | ⟨x, xs⟩
  · simp; norm_num
  · have h1 : max (x :: xs).length 1 = (x :: xs).length := by
      simp [Nat.succ_le_iff]
    rw [h1]

theorem token_boost_le (expansionTokens textTokens keywords : List String) :
    token_boost expansionTokens textTokens keywords ≤
      (expansionTokens.length : ℚ) * (3/20) := by
  rw [token_boost_eq_clamped_sum]
  exact min_le_right _ _

/-! ## Claim theorems (with their witnesses) -/

/-- C3: a `cache_set(k, v)` followed by a `cache_get(k)` with elapsed time at
most `CACHE_TTL_SECONDS` returns exactly `v`; a `cache_get(k)` with elapsed
time strictly greater than `CACHE_TTL_SECONDS` removes the entry and returns a
miss; and `cache_set` overwrites any existing entry unconditionally. -/
theorem claim_C3_cache_ttl {V : Type} (c : Cache V) (t now : ℚ) (k : String)
    (v : V) :
    (now - t ≤ CACHE_TTL_SECONDS →
      (cache_get (cache_set c t k v) CACHE_TTL_SECONDS now k).1 = some v) ∧
    (now - t > CACHE_TTL_SECONDS →
      (cache_get (cache_set c t k v) CACHE_TTL_SECONDS now k).1 = none ∧
        (cache_get (cache_set c t k v) CACHE_TTL_SECONDS now k).2 k = none) ∧
    cache_set c t k v k = some (t, v) := by
  refine ⟨fun h => cache_get_after_set_within_ttl c _ t now k v h,
    fun h => cache_get_after_set_expired c _ t now k v h,
    cache_set_overwrites c t k v⟩

/-- Witness for C3 at concrete inputs: a hit 100 seconds after the set, a
miss 301 seconds after it. -/
theorem claim_C3_cache_ttl_witness :
    (cache_get (cache_set (fun _ => (none : Option (ℚ × ℕ))) 0 "q" 7)
        CACHE_TTL_SECONDS 100 "q").1 = some 7 ∧
    (cache_get (cache_set (fun _ => (none : Option (ℚ × ℕ))) 0 "q" 7)
        CACHE_TTL_SECONDS 301 "q").1 = none :=
  ⟨(claim_C3_cache_ttl _ 0 100 "q" 7).1 (by norm_num [CACHE_TTL_SECONDS]),
   ((claim_C3_cache_ttl _ 0 301 "q" 7).2.1
      (by norm_num [CACHE_TTL_SECONDS])).1⟩

/-- C2: in the dedupe verifier, a reply containing the token "DUPLICATE"
(after strip and uppercase) yields verdict DUPLICATE; one containing "UNIQUE"
but not "DUPLICATE" yields UNIQUE; any run whose attempts all fail or return
unclassifiable text, a missing API key, or an empty top-matches list yields
UNIQUE; and a UNIQUE verdict (or a dedupe-pipeline error) means the record is
inserted (fail-open). -/
theorem claim_C2_dedupe_verdict :
    (∀ (t : String) (rest : List LLMAttempt),
        containsSub (pyUpper (pyStrip t)) "DUPLICATE" = true →
        verifyAttempts (LLMAttempt.reply t :: rest) = true) ∧
    (∀ (t : String) (rest : List LLMAttempt),
        containsSub (pyUpper (pyStrip t)) "DUPLICATE" = false →
        containsSub (pyUpper (pyStrip t)) "UNIQUE" = true →
        verifyAttempts (LLMAttempt.reply t :: rest) = false) ∧
    (∀ (cn tm mk : Bool) (retries : ℕ) (attempts : ℕ → LLMAttempt),
        (∀ i, unclassifiable (attempts i)) →
        llm_verify_duplicate cn tm true mk retries attempts = false) ∧
    (∀ (cn tm mk : Bool) (retries : ℕ) (attempts : ℕ → LLMAttempt),
        llm_verify_duplicate cn tm false mk retries attempts = false) ∧
    (∀ (cn ak mk : Bool) (retries : ℕ) (attempts : ℕ → LLMAttempt),
        llm_verify_duplicate cn false ak mk retries attempts = false) ∧
    dedupeInsertDecision (some false) = true ∧
    dedupeInsertDecision none = true := by
  refine ⟨?_, ?_, ?_, ?_, ?_, rfl, rfl⟩
  · intro t rest h
    simp [verifyAttempts, h]
  · intro t rest h1 h2
    simp [verifyAttempts, h1, h2]
  · intro cn tm mk retries attempts h
    by_cases hcn : cn = true <;> by_cases htm : tm = true <;>
      by_cases hmk : mk = true <;>
      simp [llm_verify_duplicate, hcn, htm, hmk] <;>
      refine verifyAttempts_of_unclassifiable _ ?_ <;>
      · intro a ha
        rw [List.mem_map] at ha
        obtain ⟨i, _, rfl⟩ := ha
        exact h i
  · intro cn tm mk retries attempts
    by_cases hcn : cn = true <;> by_cases htm : tm = true <;>
      simp [llm_verify_duplicate, hcn, htm]
  · intro cn ak mk retries attempts
    by_cases hcn : cn = true <;>
      simp [llm_verify_duplicate, hcn]

/-- Witness for C2 at concrete replies: "it is a DUPLICATE." is classified
DUPLICATE, "Unique" is classified UNIQUE, an all-error run fails open, and so
do runs with a missing key or no top matches. -/
theorem claim_C2_dedupe_verdict_witness :
    verifyAttempts [LLMAttempt.reply "it is a DUPLICATE."] = true ∧
    verifyAttempts [LLMAttempt.reply "Unique"] = false ∧
    llm_verify_duplicate true true true true 2 (fun _ => LLMAttempt.err) =
      false ∧
    llm_verify_duplicate true true false true 2
      (fun _ => LLMAttempt.reply "DUPLICATE") = false ∧
    llm_verify_duplicate true false true true 2
      (fun _ => LLMAttempt.reply "DUPLICATE") = false :=
  ⟨claim_C2_dedupe_verdict.1 "it is a DUPLICATE." [] (by decide),
   claim_C2_dedupe_verdict.2.1 "Unique" [] (by decide) (by decide),
   claim_C2_dedupe_verdict.2.2.1 true true true 2 (fun _ => LLMAttempt.err)
     (fun _ => by trivial),
   claim_C2_dedupe_verdict.2.2.2.1 true true true 2
     (fun _ => LLMAttempt.reply "DUPLICATE"),
   claim_C2_dedupe_verdict.2.2.2.2.1 true true true 2
     (fun _ => LLMAttempt.reply "DUPLICATE")⟩

/-- C4: under scoring variant A, `score_v1` equals
`0.60 * ann_score + 0.25 * max(sim_desc, sim_steps, sim_summary) + token_boost`
where `token_boost` is the per-token sum (`+0.10` for a text-token hit,
`+0.15` for a keyword hit) clamped so that it never exceeds
`0.15 * |expansion_tokens|`. -/
theorem claim_C4_variant_a_score (base simDesc simSteps simSummary : ℚ)
    (expTok textTok kw : List String) :
    score_v1 base simDesc simSteps simSummary expTok textTok kw =
      3/5 * base + 1/4 * max simDesc (max simSteps simSummary) +
        min ((expTok.map (specPerTokenBoost textTok kw)).sum)
          ((expTok.length : ℚ) * (3/20)) ∧
    token_boost expTok textTok kw ≤ (expTok.length : ℚ) * (3/20) := by
  constructor
  · unfold score_v1
    rw [token_boost_eq_clamped_sum]
  · exact token_boost_le expTok textTok kw

/-! ## Embedding lemmas (C8) -/

theorem addVec_length : ∀ a b : List ℚ, a.length = b.length →
    ∃ c, addVec a b = some c ∧ c.length = a.length := by
  intro a
  induction a with
  | nil =>
      intro b hb
      cases b with
      | nil => exact ⟨[], rfl, rfl⟩
      | cons x xs => simp at hb
  | cons x xs ih =>
      intro b hb
      cases b with
      | nil => simp at hb
      | cons y ys =>
          simp only [List.length_cons, Nat.succ_inj] at hb
          obtain ⟨c, hc, hlen⟩ := ih ys hb
          exact ⟨(x + y) :: c, by simp [addVec, hc], by simp [hlen]⟩

theorem isEmpty_false_of_length_pos {l : List ℚ} (h : 0 < l.length) :
    l.isEmpty = false := by
  cases l with
  | nil => simp at h
  | cons a t => rfl

theorem meanVecs_three (v1 v2 v3 c12 c123 : List ℚ)
    (h12 : addVec v1 v2 = some c12) (h123 : addVec c12 v3 = some c123) :
    meanVecs [v1, v2, v3] = c123.map (fun x => x / 3) := by
  simp only [meanVecs, List.foldl, Option.some_bind, h12, h123,
    List.length_cons, List.length_nil]
  congr 1
  funext x
  push_cast
  norm_num

/-- C8 counterexample: an encoder that fails (returns `[]`) on the
description but succeeds on the other fields makes `embed_multivector`
return one empty and three nonempty vectors, violating the
all-or-nothing/equal-dimension invariant. -/
theorem claim_C8_counterexample :
    ¬ fourVectorInvariant
      (embed_multivector (fun s => if s = "d" then [] else [1]) "d" "s" "m") := by
  unfold fourVectorInvariant
  with_unfolding_all decide

/-- C8 (amended): when the encoder succeeds on all three fields with one
common dimension `d > 0`, the four returned vectors all have dimension `d`
(and the invariant holds); when it returns `[]` on all three fields and on
the empty string, all four are empty.  Partial encoder failure, as in the
counterexample, breaks the invariant. -/
theorem claim_C8_embed_dims :
    (∀ (encode : String → List ℚ) (d : ℕ) (description steps summary : String),
      0 < d →
      (embed_text encode description).length = d →
      (embed_text encode steps).length = d →
      (embed_text encode summary).length = d →
      (embed_multivector encode description steps summary).1.length = d ∧
      (embed_multivector encode description steps summary).2.1.length = d ∧
      (embed_multivector encode description steps summary).2.2.1.length = d ∧
      (embed_multivector encode description steps summary).2.2.2.length = d ∧
      fourVectorInvariant (embed_multivector encode description steps summary)) ∧
    (∀ (encode : String → List ℚ) (description steps summary : String),
      embed_text encode description = [] →
      embed_text encode steps = [] →
      embed_text encode summary = [] →
      embed_text encode "" = [] →
      embed_multivector encode description steps summary = ([], [], [], [])) := by
  constructor
  · intro encode d description steps summary hd h1 h2 h3
    have ne1 : (embed_text encode description).isEmpty = false :=
      isEmpty_false_of_length_pos (by rw [h1]; exact hd)
    have ne2 : (embed_text encode steps).isEmpty = false :=
      isEmpty_false_of_length_pos (by rw [h2]; exact hd)
    have ne3 : (embed_text encode summary).isEmpty = false :=
      isEmpty_false_of_length_pos (by rw [h3]; exact hd)
    obtain ⟨c12, hc12, hl12⟩ :=
      addVec_length (embed_text encode description) (embed_text encode steps)
        (by rw [h1, h2])
    obtain ⟨c123, hc123, hl123⟩ :=
      addVec_length c12 (embed_text encode summary)
        (by rw [hl12, h1, h3])
    have hmain : (embed_multivector encode description steps summary).2.2.2 =
        c123.map (fun x => x / 3) := by
      unfold embed_multivector
      simp only [List.filter, ne1, ne2, ne3, Bool.not_false]
      rw [meanVecs_three _ _ _ c12 c123 hc12 hc123]
      simp
    have hlen : (embed_multivector encode description steps summary).2.2.2.length
        = d := by
      rw [hmain, List.length_map, hl123, hl12, h1]
    refine ⟨h1, h2, h3, hlen, ?_⟩
    left
    refine ⟨?_, ?_, ?_, ?_⟩
    · show (embed_multivector encode description steps summary).1.length ≠ 0
      rw [show (embed_multivector encode description steps summary).1 =
        embed_text encode description from rfl, h1]
      omega
    · show (embed_multivector encode description steps summary).2.1.length = _
      rw [show (embed_multivector encode description steps summary).2.1 =
        embed_text encode steps from rfl, h2]
      rw [show (embed_multivector encode description steps summary).1 =
        embed_text encode description from rfl, h1]
    · rw [show (embed_multivector encode description steps summary).2.2.1 =
        embed_text encode summary from rfl, h3]
      rw [show (embed_multivector encode description steps summary).1 =
        embed_text encode description from rfl, h1]
    · rw [hlen]
      rw [show (embed_multivector encode description steps summary).1 =
        embed_text encode description from rfl, h1]
  · intro encode description steps summary h1 h2 h3 h0
    simp [embed_multivector, h1, h2, h3, h0]

/-- Witness for C8 (amended) with a dimension-2 encoder and an all-failing
encoder. -/
theorem claim_C8_embed_dims_witness :
    (embed_multivector (fun _ => [1, 2]) "a" "b" "c").2.2.2.length = 2 ∧
    embed_multivector (fun _ => []) "a" "b" "c" = ([], [], [], []) :=
  ⟨(claim_C8_embed_dims.1 (fun _ => [1, 2]) 2 "a" "b" "c" (by norm_num)
      rfl rfl rfl).2.2.2.1,
   claim_C8_embed_dims.2 (fun _ => []) "a" "b" "c" rfl rfl rfl rfl⟩

/-! ## Gateway lemmas (C9) -/

theorem verifyViaGateway_trace : ∀ l : List LLMAttempt,
    ∃ k, k ≤ l.length ∧
      (verifyViaGateway l).1 = List.flatten (List.replicate k gwTriple) := by
  intro l
  induction l with
  | nil => exact ⟨0, by simp, rfl⟩
  | cons a rest ih =>
      obtain ⟨k, hk, htr⟩ := ih
      cases a with
      | err =>
          exact ⟨k + 1, by simpa using Nat.succ_le_succ hk,
            by simp [verifyViaGateway, htr, List.replicate_succ]⟩
      | reply t =>
          by_cases hdup : containsSub (pyUpper (pyStrip t)) "DUPLICATE" = true
          · exact ⟨1, by simp, by simp [verifyViaGateway, hdup]⟩
          · by_cases huni : containsSub (pyUpper (pyStrip t)) "UNIQUE" = true
            · refine ⟨1, by simp, ?_⟩
              simp only [Bool.not_eq_true] at hdup
              simp [verifyViaGateway, hdup, huni]
            · refine ⟨k + 1, by simpa using Nat.succ_le_succ hk, ?_⟩
              simp only [Bool.not_eq_true] at hdup huni
              simp [verifyViaGateway, hdup, huni, htr, List.replicate_succ]

/-- C9 counterexample: with the default retry budget (`GEMINI_RETRIES = 2`)
and a callable that fails on its first invocation but would succeed on its
second, `run_gemini_call` invokes the callable exactly once and surfaces the
error — the gateway itself performs no retry. -/
theorem claim_C9_counterexample :
    run_gemini_call
        (fun n => if n = 0 then LLMAttempt.err else LLMAttempt.reply "OK") =
      (1, none) ∧
    (fun n => if n = 0 then LLMAttempt.err else LLMAttempt.reply "OK") 1 =
      LLMAttempt.reply "OK" ∧
    (1 : ℕ) < max 1 GEMINI_RETRIES := by
  refine ⟨rfl, rfl, by decide⟩

/-- C9 (amended): `run_gemini_call` invokes its callable exactly once and
surfaces any error immediately; the bounded retries (default
`GEMINI_RETRIES = 2`) are implemented by the callers — the dedupe-verifier
loop makes at most `max 1 GEMINI_RETRIES` gateway passes, each of which is a
fresh acquire/call/release of the semaphore. -/
theorem claim_C9_retries_live_in_callers :
    (∀ funcStream, (run_gemini_call funcStream).1 = 1) ∧
    (∀ funcStream, funcStream 0 = LLMAttempt.err →
      (run_gemini_call funcStream).2 = none) ∧
    (∀ (retries : ℕ) (attempts : ℕ → LLMAttempt), ∃ k, k ≤ max 1 retries ∧
      (verifyViaGateway ((List.range (max 1 retries)).map attempts)).1 =
        List.flatten (List.replicate k gwTriple)) := by
  refine ⟨?_, ?_, ?_⟩
  · intro f
    unfold run_gemini_call
    cases f 0 <;> rfl
  · intro f h
    unfold run_gemini_call
    rw [h]
  · intro retries attempts
    obtain ⟨k, hk, htr⟩ :=
      verifyViaGateway_trace ((List.range (max 1 retries)).map attempts)
    exact ⟨k, by simpa using hk, htr⟩

/-- Witness for C9 (amended): an error stream surfaces `none` after one
invocation. -/
theorem claim_C9_retries_live_in_callers_witness :
    (run_gemini_call (fun _ => LLMAttempt.err)).1 = 1 ∧
    (run_gemini_call (fun _ => LLMAttempt.err)).2 = none :=
  ⟨claim_C9_retries_live_in_callers.1 (fun _ => LLMAttempt.err),
   claim_C9_retries_live_in_callers.2.1 (fun _ => LLMAttempt.err) rfl⟩

/-! ## Concurrency lemmas (C10) -/

theorem runSys_gateway_invariant : ∀ (acts : List SysAction) (s0 s : SysState),
    (∀ a ∈ acts, isGatewayAction a = true) →
    s0.gatewayHolders ≤ GEMINI_MAX_CONCURRENCY → s0.directCalls = 0 →
    runSys s0 acts = some s →
    s.gatewayHolders ≤ GEMINI_MAX_CONCURRENCY ∧ s.directCalls = 0 := by
  intro acts
  induction acts with
  | nil =>
      intro s0 s _ hb hd hr
      cases hr
      exact ⟨hb, hd⟩
  | cons a rest ih =>
      intro s0 s hgw hb hd hr
      have ha := hgw a (List.mem_cons_self a rest)
      have hrest := fun b hb' => hgw b (List.mem_cons_of_mem a hb')
      cases a with
      | gwAcquire =>
          by_cases hc : s0.gatewayHolders < GEMINI_MAX_CONCURRENCY
          · rw [runSys, sysStep, if_pos hc, Option.some_bind] at hr
            exact ih _ s hrest (by simpa using hc) (by simpa using hd) hr
          · rw [runSys, sysStep, if_neg hc, Option.none_bind] at hr
            cases hr
      | gwRelease =>
          by_cases hc : 0 < s0.gatewayHolders
          · rw [runSys, sysStep, if_pos hc, Option.some_bind] at hr
            exact ih _ s hrest (by simp; omega) (by simpa using hd) hr
          · rw [runSys, sysStep, if_neg hc, Option.none_bind] at hr
            cases hr
      | directStart => simp [isGatewayAction] at ha
      | directFinish => simp [isGatewayAction] at ha

/-- C10 counterexample: four tasks can hold the gateway semaphore while the
TestCases-RAG dedupe verifier (which calls `model.generate_content` without
the gateway) starts a fifth LLM call, so the system-wide in-flight count
exceeds `GEMINI_MAX_CONCURRENCY = 4`. -/
theorem claim_C10_counterexample :
    runSys ⟨0, 0⟩
        [SysAction.gwAcquire, SysAction.gwAcquire, SysAction.gwAcquire,
          SysAction.gwAcquire, SysAction.directStart] =
      some ⟨4, 1⟩ ∧
    inFlightLLM ⟨4, 1⟩ = 5 ∧
    ¬ inFlightLLM ⟨4, 1⟩ ≤ GEMINI_MAX_CONCURRENCY := by
  refine ⟨by decide, by decide, by decide⟩

/-- C10 (amended): calls that do pass through the gateway semaphore never
exceed `GEMINI_MAX_CONCURRENCY` in flight — for every action sequence made of
gateway acquisitions and releases only, every reachable state has at most 4
in-flight LLM calls.  Not every LLM call in the system passes through the
gateway (see the counterexample). -/
theorem claim_C10_gateway_bound (acts : List SysAction)
    (hgw : ∀ a ∈ acts, isGatewayAction a = true) (s : SysState)
    (h : runSys ⟨0, 0⟩ acts = some s) :
    inFlightLLM s ≤ GEMINI_MAX_CONCURRENCY := by
  obtain ⟨hb, hd⟩ :=
    runSys_gateway_invariant acts ⟨0, 0⟩ s hgw (by decide) rfl h
  unfold inFlightLLM
  omega

/-- Witness for C10 (amended) on a concrete two-acquire trace. -/
theorem claim_C10_gateway_bound_witness :
    inFlightLLM ⟨2, 0⟩ ≤ GEMINI_MAX_CONCURRENCY :=
  claim_C10_gateway_bound [SysAction.gwAcquire, SysAction.gwAcquire]
    (by decide) ⟨2, 0⟩ (by decide)

/-! ## Reranker lemmas (C6) -/

theorem idToCandidate_some : ∀ (cands : List MCand) (s : String) (c : MCand),
    idToCandidate cands s = some c → c._id = s ∧ c ∈ cands := by
  intro cands
  induction cands with
  | nil => intro s c h; cases h
  | cons a rest ih =>
      intro s c h
      simp only [idToCandidate] at h
      cases hr : idToCandidate rest s with
      | some c' =>
          rw [hr] at h
          cases h
          obtain ⟨h1, h2⟩ := ih s c hr
          exact ⟨h1, List.mem_cons_of_mem a h2⟩
      | none =>
          rw [hr] at h
          by_cases he : s = a._id
          · rw [if_pos he] at h
            cases h
            exact ⟨he.symm, List.mem_cons_self _ _⟩
          · rw [if_neg he] at h
            cases h

theorem filter_notin_cons_perm :
    ∀ (cands : List MCand), (cands.map MCand._id).Nodup →
    ∀ (c : MCand), c ∈ cands → ∀ (cid : String), c._id = cid →
    ∀ (seen : List String), cid ∉ seen →
      List.Perm (cands.filter (fun x => decide (x._id ∉ seen)))
        (c :: cands.filter (fun x => decide (x._id ∉ (cid :: seen)))) := by
  intro cands
  induction cands with
  | nil => intro _ c hc; cases hc
  | cons a rest ih =>
      intro hnd c hc cid hcid seen hs
      rw [List.map_cons, List.nodup_cons] at hnd
      obtain ⟨ha, hrest⟩ := hnd
      rcases List.mem_cons.mp hc with rfl | hmem
      · have h1 : decide (c._id ∉ seen) = true := by
          simp [hcid, hs]
        have h2 : decide (c._id ∉ (cid :: seen)) = false := by
          simp [hcid]
        rw [List.filter_cons, List.filter_cons, h1, h2]
        simp only [if_true, if_false, ite_true, ite_false]
        have heq : rest.filter (fun x => decide (x._id ∉ seen)) =
            rest.filter (fun x => decide (x._id ∉ (cid :: seen))) := by
          apply List.filter_congr
          intro x hx
          have hne : x._id ≠ cid := by
            intro e
            exact ha (by
              rw [hcid, ← e]
              exact List.mem_map_of_mem MCand._id hx)
          simp [hne]
        rw [heq]
        simp
      · have hane : a._id ≠ cid := by
          intro e
          apply ha
          rw [e, ← hcid]
          exact List.mem_map_of_mem MCand._id hmem
        by_cases hin : a._id ∈ seen
        · have h1 : decide (a._id ∉ seen) = false := by simp [hin]
          have h2 : decide (a._id ∉ (cid :: seen)) = false := by
            simp [List.mem_cons, hin]
          rw [List.filter_cons, List.filter_cons, h1, h2]
          simpa using ih hrest c hmem cid hcid seen hs
        · have h1 : decide (a._id ∉ seen) = true := by simp [hin]
          have h2 : decide (a._id ∉ (cid :: seen)) = true := by
            simp [hin, hane]
          rw [List.filter_cons, List.filter_cons, h1, h2]
          simpa using List.Perm.trans
            ((ih hrest c hmem cid hcid seen hs).cons a)
            (List.Perm.swap c a _)

theorem buildOrdered_filter_perm (cands : List MCand)
    (hnd : (cands.map MCand._id).Nodup) :
    ∀ (ids seen : List String),
      List.Perm
        ((buildOrdered (idToCandidate cands) ids seen).1 ++
          cands.filter (fun c =>
            decide (c._id ∉ (buildOrdered (idToCandidate cands) ids seen).2)))
        (cands.filter (fun c => decide (c._id ∉ seen))) := by
  intro ids
  induction ids with
  | nil => intro seen; simp [buildOrdered]
  | cons cid rest ih =>
      intro seen
      cases hl : idToCandidate cands cid with
      | none =>
          simp only [buildOrdered, hl]
          exact ih seen
      | some c =>
          by_cases hseen : cid ∈ seen
          · simp only [buildOrdered, hl, if_pos hseen]
            exact ih seen
          · simp only [buildOrdered, hl, if_neg hseen]
            obtain ⟨hid, hmem⟩ := idToCandidate_some cands cid c hl
            exact List.Perm.trans ((ih (cid :: seen)).cons c)
              (filter_notin_cons_perm cands hnd c hmem cid hid seen hseen).symm

theorem rerank_with_gemini_none (e k m : Bool) (cands : List MCand) :
    rerank_with_gemini e k m none cands = cands := by
  unfold rerank_with_gemini
  split
  · rfl
  · split
    · rfl
    · split
      · rfl
      · rfl

theorem rerank_with_gemini_model_fail (e k : Bool) (reply : Option String)
    (cands : List MCand) :
    rerank_with_gemini e k false reply cands = cands := by
  unfold rerank_with_gemini
  split
  · rfl
  · split
    · rfl
    · simp

theorem rerank_with_gemini_shape (k m : Bool) (raw : String)
    (cands : List MCand) (hk : k = true) (hm : m = true) (hc : cands ≠ []) :
    rerank_with_gemini true k m (some raw) cands =
      (buildOrdered (idToCandidate cands)
          (extractOrderedIds (pyStrip raw)) []).1 ++
        cands.filter (fun c =>
          decide (c._id ∉
            (buildOrdered (idToCandidate cands)
              (extractOrderedIds (pyStrip raw)) []).2)) := by
  subst hk hm
  have hemp : cands.isEmpty = false := by
    cases cands with
    | nil => exact absurd rfl hc
    | cons a l => rfl
  simp [rerank_with_gemini, hemp]

/-- C6: `rerank_with_gemini` returns the input unchanged when the rerank is
disabled, the key is missing, the model fails to build, the candidate list is
empty, or the call fails; on candidate lists with pairwise-distinct ids its
output is a permutation of the input; and on a successful call the output is
the candidates picked by the parsed reply ids (first occurrences, in id
order) followed by all unpicked candidates in their original input order. -/
theorem claim_C6_rerank_permutation (rerankEnabled apiKeySet modelInitOk :
    Bool) (reply : Option String) (cands : List MCand) :
    ((rerankEnabled = false ∨ apiKeySet = false ∨ modelInitOk = false ∨
        cands = [] ∨ reply = none) →
      rerank_with_gemini rerankEnabled apiKeySet modelInitOk reply cands =
        cands) ∧
    ((cands.map MCand._id).Nodup →
      List.Perm
        (rerank_with_gemini rerankEnabled apiKeySet modelInitOk reply cands)
        cands) ∧
    (∀ raw, rerankEnabled = true → apiKeySet = true → modelInitOk = true →
      cands ≠ [] → reply = some raw →
      rerank_with_gemini rerankEnabled apiKeySet modelInitOk reply cands =
        (buildOrdered (idToCandidate cands)
            (extractOrderedIds (pyStrip raw)) []).1 ++
          cands.filter (fun c =>
            decide (c._id ∉
              (buildOrdered (idToCandidate cands)
                (extractOrderedIds (pyStrip raw)) []).2))) := by
  refine ⟨?_, ?_, ?_⟩
  · intro h
    rcases h with he | hk | hm | hc | hrep
    · subst he
      simp [rerank_with_gemini]
    · subst hk
      simp [rerank_with_gemini]
    · subst hm
      exact rerank_with_gemini_model_fail _ _ _ _
    · subst hc
      simp [rerank_with_gemini]
    · subst hrep
      exact rerank_with_gemini_none _ _ _ _
  · intro hnd
    cases he : rerankEnabled with
    | false =>
        rw [show rerank_with_gemini false apiKeySet modelInitOk reply cands =
          cands by simp [rerank_with_gemini]]
    | true =>
        cases hk : apiKeySet with
        | false =>
            rw [show rerank_with_gemini true false modelInitOk reply cands =
              cands by simp [rerank_with_gemini]]
        | true =>
            cases hm : modelInitOk with
            | false => rw [rerank_with_gemini_model_fail]
            | true =>
                cases hrep : reply with
                | none => rw [rerank_with_gemini_none]
                | some raw =>
                    cases hc : cands with
                    | nil => simp [rerank_with_gemini]
                    | cons a l =>
                        rw [← hc]
                        rw [rerank_with_gemini_shape true true raw cands rfl
                          rfl (by rw [hc]; simp)]
                        rw [hc] at hnd
                        rw [hc]
                        refine List.Perm.trans
                          (buildOrdered_filter_perm (a :: l) hnd
                            (extractOrderedIds (pyStrip raw)) []) ?_
                        rw [List.filter_eq_self.mpr ?_]
                        intro x _
                        simp
  · intro raw he hk hm hc hrep
    subst he hk hm hrep
    exact rerank_with_gemini_shape _ _ raw cands rfl rfl hc

/-! ## Sorting and bounds lemmas (C1, C7) -/

theorem foldl_min_le_init : ∀ (l : List ℚ) (a : ℚ), l.foldl min a ≤ a := by
  intro l
  induction l with
  | nil => intro a; exact le_refl a
  | cons x xs ih =>
      intro a
      exact le_trans (ih (min a x)) (min_le_left a x)

theorem foldl_min_le_mem : ∀ (l : List ℚ) (a x : ℚ), x ∈ l →
    l.foldl min a ≤ x := by
  intro l
  induction l with
  | nil => intro a x hx; cases hx
  | cons y ys ih =>
      intro a x hx
      rcases List.mem_cons.mp hx with rfl | hmem
      · exact le_trans (foldl_min_le_init ys (min a x)) (min_le_right a x)
      · exact ih (min a y) x hmem

theorem le_foldl_max_init : ∀ (l : List ℚ) (a : ℚ), a ≤ l.foldl max a := by
  intro l
  induction l with
  | nil => intro a; exact le_refl a
  | cons x xs ih =>
      intro a
      exact le_trans (le_max_left a x) (ih (max a x))

theorem le_foldl_max_mem : ∀ (l : List ℚ) (a x : ℚ), x ∈ l →
    x ≤ l.foldl max a := by
  intro l
  induction l with
  | nil => intro a x hx; cases hx
  | cons y ys ih =>
      intro a x hx
      rcases List.mem_cons.mp hx with rfl | hmem
      · exact le_trans (le_max_right a x) (le_foldl_max_init ys (max a x))
      · exact ih (max a y) x hmem

theorem normalizeScores_norm_bounds (cands : List Candidate)
    (key : Candidate → ℚ) :
    ∀ nc ∈ normalizeScores cands key, 0 ≤ nc.norm ∧ nc.norm ≤ 1 := by
  intro nc hnc
  cases cands with
  | nil => cases hnc
  | cons c0 rest =>
      simp only [normalizeScores] at hnc
      by_cases hcond : scoresMax (key c0) (rest.map key) -
          scoresMin (key c0) (rest.map key) > 1 / 10 ^ 12
      · rw [if_pos hcond] at hnc
        obtain ⟨c, hc, rfl⟩ := List.mem_map.mp hnc
        have hpos : (0 : ℚ) <
            scoresMax (key c0) (rest.map key) -
              scoresMin (key c0) (rest.map key) := by
          have : (0 : ℚ) < 1 / 10 ^ 12 := by norm_num
          linarith
        have hminle : scoresMin (key c0) (rest.map key) ≤ key c := by
          rcases List.mem_cons.mp hc with rfl | hmem
          · exact foldl_min_le_init _ _
          · exact foldl_min_le_mem _ _ _ (List.mem_map_of_mem key hmem)
        have hlemax : key c ≤ scoresMax (key c0) (rest.map key) := by
          rcases List.mem_cons.mp hc with rfl | hmem
          · exact le_foldl_max_init _ _
          · exact le_foldl_max_mem _ _ _ (List.mem_map_of_mem key hmem)
        constructor
        · exact div_nonneg (by linarith) (le_of_lt hpos)
        · rw [div_le_one hpos]
          linarith
      · rw [if_neg hcond] at hnc
        obtain ⟨c, hc, rfl⟩ := List.mem_map.mp hnc
        norm_num

theorem ratFloor_eq_intFloor (q : ℚ) : (q.floor : ℤ) = ⌊q⌋ := by
  rw [Rat.floor_def', Rat.floor_def]

theorem round2_bounds (q : ℚ) (h0 : 0 ≤ q) (h1 : q ≤ 100) :
    0 ≤ round2 q ∧ round2 q ≤ 100 := by
  unfold round2
  rw [ratFloor_eq_intFloor]
  constructor
  · apply div_nonneg _ (by norm_num : (0 : ℚ) ≤ 100)
    have : (0 : ℤ) ≤ ⌊q * 100 + 1 / 2⌋ := by
      rw [Int.le_floor]
      push_cast
      linarith
    exact_mod_cast this
  · rw [div_le_iff₀ (by norm_num : (0 : ℚ) < 100)]
    have h2 : ⌊q * 100 + 1 / 2⌋ ≤ (10000 : ℤ) := by
      have hle : q * 100 + 1 / 2 ≤ 20001 / 2 := by linarith
      have hv : ⌊(20001 / 2 : ℚ)⌋ = 10000 := by
        rw [Int.floor_eq_iff] <;> norm_num
      calc ⌊q * 100 + 1 / 2⌋ ≤ ⌊(20001 / 2 : ℚ)⌋ := Int.floor_mono hle
        _ = 10000 := hv
    have h3 : ((⌊q * 100 + 1 / 2⌋ : ℤ) : ℚ) ≤ 10000 := by exact_mod_cast h2
    linarith

theorem pyOr_zero (p : ℚ) : pyOr p 0 = p := by
  unfold pyOr
  by_cases h : p = 0
  · rw [if_pos h, h]
  · rw [if_neg h]

theorem pyOr_bounds (p d : ℚ) (hp0 : 0 ≤ p) (hp1 : p ≤ 100) (hd0 : 0 ≤ d)
    (hd1 : d ≤ 100) : 0 ≤ pyOr p d ∧ pyOr p d ≤ 100 := by
  unfold pyOr
  by_cases h : p = 0
  · rw [if_pos h]; exact ⟨hd0, hd1⟩
  · rw [if_neg h]; exact ⟨hp0, hp1⟩

theorem provisionalAux_bounds (total : ℚ) :
    ∀ (fl : List NormedCandidate) (rank : ℚ),
    (∀ nc ∈ fl, 0 ≤ nc.norm ∧ nc.norm ≤ 1) → 1 ≤ rank →
    rank + fl.length - 1 ≤ total →
    ∀ it ∈ provisionalAux total rank fl,
      0 ≤ it.probability ∧ it.probability ≤ 100 := by
  intro fl
  induction fl with
  | nil => intro rank _ _ _ it hit; cases hit
  | cons nc rest ih =>
      intro rank hnorm hrank htot it hit
      have hlen : rank + rest.length ≤ total := by
        simp only [List.length_cons] at htot
        push_cast at htot ⊢
        linarith
      rcases List.mem_cons.mp hit with rfl | hmem
      · have hn := hnorm nc (List.mem_cons_self nc rest)
        have htpos : (0 : ℚ) < total := by
          have : (0 : ℚ) ≤ rest.length := by positivity
          linarith
        have hrt : rank ≤ total := by
          have : (0 : ℚ) ≤ rest.length := by positivity
          linarith
        have hw0 : 0 ≤ (total - rank + 1) / total :=
          div_nonneg (by linarith) (le_of_lt htpos)
        have hw1 : (total - rank + 1) / total ≤ 1 := by
          rw [div_le_one htpos]
          linarith
        apply round2_bounds
        · nlinarith [hn.1, hn.2]
        · nlinarith [hn.1, hn.2]
      · exact ih (rank + 1)
          (fun x hx => hnorm x (List.mem_cons_of_mem nc hx))
          (by linarith) (by push_cast; push_cast at hlen; linarith) it hmem

theorem provisionalItems_bounds (fl : List NormedCandidate)
    (hnorm : ∀ nc ∈ fl, 0 ≤ nc.norm ∧ nc.norm ≤ 1) :
    ∀ it ∈ provisionalItems fl,
      0 ≤ it.probability ∧ it.probability ≤ 100 := by
  unfold provisionalItems
  apply provisionalAux_bounds _ fl 1 hnorm (le_refl 1)
  have h : (fl.length : ℚ) ≤ ((max fl.length 1 : ℕ) : ℚ) :=
    Nat.cast_le.mpr (le_max_left _ _)
  linarith

theorem parseRankedItems_bounds (raw : String) :
    ∀ p ∈ parseRankedItems raw, 0 ≤ p.2 ∧ p.2 ≤ 100 := by
  intro p hp
  unfold parseRankedItems at hp
  obtain ⟨line, _, hline⟩ := List.mem_filterMap.mp hp
  rcases hparts : (splitOnChar '|' line).map pyStrip with _ | ⟨a, t⟩
  · rw [hparts] at hline
    cases hline
  · rcases t with _ | ⟨b, t2⟩
    · rw [hparts] at hline
      cases hline
    · rcases t2 with _ | ⟨cc, t3⟩
      · rw [hparts] at hline
        have hline2 : (match parseDecimal b with
            | some sc => some (a, max 0 (min 100 sc))
            | none => none) = some p := hline
        cases hsc : parseDecimal b with
        | none => rw [hsc] at hline2; cases hline2
        | some sc =>
            rw [hsc] at hline2
            cases hline2
            constructor
            · exact le_max_left 0 _
            · exact max_le (by norm_num) (min_le_left 100 sc)
      · rw [hparts] at hline
        cases hline

theorem finalVals_subset (store : List Item) (refs : List ℕ) :
    ∀ it ∈ finalVals store refs, it ∈ store := by
  intro it hit
  obtain ⟨j, _, hj⟩ := List.mem_filterMap.mp hit
  exact List.get?_mem hj

theorem applyRanked_store_bounds :
    ∀ (ranked : List (String × ℚ)) (store : List Item) (refs : List ℕ),
    (∀ it ∈ store, 0 ≤ it.probability ∧ it.probability ≤ 100) →
    (∀ p ∈ ranked, 0 ≤ p.2 ∧ p.2 ≤ 100) →
    ∀ it ∈ (applyRanked store refs ranked).1,
      0 ≤ it.probability ∧ it.probability ≤ 100 := by
  intro ranked
  induction ranked with
  | nil => intro store refs hstore _ it hit; exact hstore it hit
  | cons p rest ih =>
      intro store refs hstore hranked it hit
      obtain ⟨i, sc⟩ := p
      have hsc := hranked (i, sc) (List.mem_cons_self _ _)
      have hrest := fun q hq => hranked q (List.mem_cons_of_mem _ hq)
      unfold applyRanked at hit
      cases hj : idMapFn store i with
      | none =>
          rw [hj] at hit
          exact ih store refs hstore hrest it hit
      | some j =>
          rw [hj] at hit
          have hit2 : it ∈ (match store.get? j with
              | some it0 =>
                  applyRanked (store.set j (setProb it0 (round2 sc)))
                    (refs ++ [j]) rest
              | none => applyRanked store refs rest).1 := hit
          cases hget : store.get? j with
          | none =>
              rw [hget] at hit2
              exact ih store refs hstore hrest it hit2
          | some it0 =>
              rw [hget] at hit2
              refine ih _ _ ?_ hrest it hit2
              intro x hx
              rcases List.mem_or_eq_of_mem_set hx with hmem | rfl
              · exact hstore x hmem
              · exact round2_bounds sc hsc.1 hsc.2

theorem fillLoop_bounds :
    ∀ (l : List Item) (topK : ℕ) (final : List Item),
    (∀ it ∈ final, 0 ≤ it.probability ∧ it.probability ≤ 100) →
    (∀ r ∈ l, 0 ≤ r.probability ∧ r.probability ≤ 100) →
    ∀ it ∈ fillLoop topK final l,
      0 ≤ it.probability ∧ it.probability ≤ 100 := by
  intro l
  induction l with
  | nil => intro topK final hfin _ it hit; exact hfin it hit
  | cons r rest ih =>
      intro topK final hfin hl it hit
      have hr := hl r (List.mem_cons_self r rest)
      have hrest := fun x hx => hl x (List.mem_cons_of_mem r hx)
      unfold fillLoop at hit
      by_cases hlen : final.length = topK
      · rw [if_pos hlen] at hit
        exact hfin it hit
      · rw [if_neg hlen] at hit
        by_cases hmem : r ∈ final
        · rw [if_pos hmem] at hit
          exact ih topK final hfin hrest it hit
        · rw [if_neg hmem] at hit
          refine ih topK _ ?_ hrest it hit
          intro x hx
          rcases List.mem_append.mp hx with hx1 | hx2
          · exact hfin x hx1
          · rw [List.mem_singleton.mp hx2]
            have hp := pyOr_bounds r.probability 50 hr.1 hr.2
              (by norm_num) (by norm_num)
            exact round2_bounds _ hp.1 hp.2

theorem final_llm_rerank_bounds (e k m : Bool) (reply : Option String)
    (results : List Item) (topK : ℕ)
    (hres : ∀ it ∈ results, 0 ≤ it.probability ∧ it.probability ≤ 100) :
    ∀ it ∈ (final_llm_rerank e k m reply results topK).items,
      0 ≤ it.probability ∧ it.probability ≤ 100 := by
  intro it hit
  have htake : ∀ n, it ∈ results.take n →
      0 ≤ it.probability ∧ it.probability ≤ 100 :=
    fun n h => hres it (List.mem_of_mem_take h)
  unfold final_llm_rerank at hit
  by_cases h1 : ¬e ∨ ¬k ∨ results.isEmpty ∨ results.length ≤ 1
  · rw [if_pos h1] at hit
    exact htake _ hit
  · rw [if_neg h1] at hit
    by_cases h2 : ¬m
    · rw [if_pos h2] at hit
      exact htake _ hit
    · rw [if_neg h2] at hit
      cases reply with
      | none => exact htake _ hit
      | some raw =>
          simp only at hit
          by_cases h3 : (parseRankedItems (pyStrip raw)).isEmpty = true
          · rw [if_pos h3] at hit
            exact htake _ hit
          · rw [if_neg h3] at hit
            have hstore := applyRanked_store_bounds
              ((parseRankedItems (pyStrip raw)).take topK) results [] hres
              (fun p hp => parseRankedItems_bounds (pyStrip raw) p
                (List.mem_of_mem_take hp))
            have hmatched : ∀ x ∈ finalVals
                (applyRanked results []
                  ((parseRankedItems (pyStrip raw)).take topK)).1
                (applyRanked results []
                  ((parseRankedItems (pyStrip raw)).take topK)).2,
                0 ≤ x.probability ∧ x.probability ≤ 100 :=
              fun x hx => hstore x (finalVals_subset _ _ x hx)
            by_cases h4 : (applyRanked results []
                ((parseRankedItems (pyStrip raw)).take topK)).2.length < topK
            · rw [if_pos h4] at hit
              exact fillLoop_bounds _ topK _ hmatched hstore it hit
            · rw [if_neg h4] at hit
              exact hmatched it hit

theorem insertDescBy_mem {α : Type} (f : α → ℚ) (x : α) :
    ∀ (l : List α) (y : α), y ∈ insertDescBy f x l → y = x ∨ y ∈ l := by
  intro l
  induction l with
  | nil =>
      intro y hy
      rcases List.mem_singleton.mp hy with rfl
      exact Or.inl rfl
  | cons z zs ih =>
      intro y hy
      unfold insertDescBy at hy
      by_cases hc : f z < f x
      · rw [if_pos hc] at hy
        rcases List.mem_cons.mp hy with rfl | hy2
        · exact Or.inl rfl
        · exact Or.inr hy2
      · rw [if_neg hc] at hy
        rcases List.mem_cons.mp hy with rfl | hy2
        · exact Or.inr (List.mem_cons_self _ _)
        · rcases ih y hy2 with h | h
          · exact Or.inl h
          · exact Or.inr (List.mem_cons_of_mem z h)

theorem sortDescBy_mem {α : Type} (f : α → ℚ) :
    ∀ (l : List α) (y : α), y ∈ sortDescBy f l → y ∈ l := by
  intro l
  induction l with
  | nil => intro y hy; cases hy
  | cons x xs ih =>
      intro y hy
      unfold sortDescBy at hy
      rcases insertDescBy_mem f x (sortDescBy f xs) y hy with rfl | h
      · exact List.mem_cons_self _ _
      · exact List.mem_cons_of_mem x (ih y h)

theorem insertDescBy_sorted {α : Type} (f : α → ℚ) (x : α) :
    ∀ l : List α, List.Sorted (fun a b => f b ≤ f a) l →
      List.Sorted (fun a b => f b ≤ f a) (insertDescBy f x l) := by
  intro l
  induction l with
  | nil => intro _; simp [insertDescBy]
  | cons y ys ih =>
      intro hs
      rw [List.sorted_cons] at hs
      obtain ⟨hy, hys⟩ := hs
      unfold insertDescBy
      by_cases hc : f y < f x
      · rw [if_pos hc]
        rw [List.sorted_cons]
        refine ⟨?_, ?_⟩
        · intro b hb
          rcases List.mem_cons.mp hb with rfl | hmem
          · exact le_of_lt hc
          · exact le_trans (hy b hmem) (le_of_lt hc)
        · rw [List.sorted_cons]
          exact ⟨hy, hys⟩
      · rw [if_neg hc]
        rw [List.sorted_cons]
        refine ⟨?_, ih hys⟩
        intro b hb
        rcases insertDescBy_mem f x ys b hb with rfl | hmem
        · exact not_lt.mp hc
        · exact hy b hmem

theorem sortDescBy_sorted {α : Type} (f : α → ℚ) :
    ∀ l : List α, List.Sorted (fun a b => f b ≤ f a) (sortDescBy f l) := by
  intro l
  induction l with
  | nil => simp [sortDescBy]
  | cons x xs ih => exact insertDescBy_sorted f x (sortDescBy f xs) ih

/-- C1: every response assembled by the search route has every probability in
`[0, 100]`, its results sorted by probability in descending order, and
`results_count` equal to the length of the results list. -/
theorem claim_C1_response_invariants (rawQuery : String)
    (ff : Option String) (variant : String) (cands : List Candidate)
    (e k m : Bool) (reply : Option String) :
    (∀ it ∈ (searchRespond rawQuery ff variant cands e k m reply).1.results,
      0 ≤ it.probability ∧ it.probability ≤ 100) ∧
    List.Sorted (fun a b => b.probability ≤ a.probability)
      (searchRespond rawQuery ff variant cands e k m reply).1.results ∧
    (searchRespond rawQuery ff variant cands e k m reply).1.results_count =
      (searchRespond rawQuery ff variant cands e k m reply).1.results.length
    := by
  refine ⟨?_, ?_, rfl⟩
  · intro it hit
    have hsel : ∀ nc ∈ select_final_results cands variant,
        0 ≤ nc.norm ∧ nc.norm ≤ 1 := by
      intro nc hnc
      cases cands with
      | nil => cases hnc
      | cons c0 rest =>
          unfold select_final_results at hnc
          have hnc2 := List.mem_of_mem_take (List.mem_of_mem_take hnc)
          exact normalizeScores_norm_bounds _ _ nc
            (sortDescBy_mem _ _ nc hnc2)
    have hprov := provisionalItems_bounds _ hsel
    have hfin := final_llm_rerank_bounds e k m reply
      (provisionalItems (select_final_results cands variant)) TOP_K hprov
    exact hfin it (sortDescBy_mem _ _ it hit)
  · have hs := sortDescBy_sorted (fun it : Item => pyOr it.probability 0)
      (final_llm_rerank e k m reply
        (provisionalItems (select_final_results cands variant)) TOP_K).items
    refine List.Pairwise.imp ?_ hs
    intro a b h
    rwa [pyOr_zero, pyOr_zero] at h

/-! ## Single-candidate lemmas (C7) -/

theorem normalizeScores_single (c : Candidate) (key : Candidate → ℚ) :
    normalizeScores [c] key = [{ cand := c, norm := 1 }] := by
  simp only [normalizeScores, scoresMin, scoresMax, List.map_nil, List.foldl]
  rw [if_neg]
  · rfl
  · simp

theorem select_final_results_single (c : Candidate) (variant : String) :
    select_final_results [c] variant = [{ cand := c, norm := 1 }] := by
  have hstep : select_final_results [c] variant =
      List.take FINAL_RESULTS (List.take CANDIDATES_TO_RETRIEVE
        (sortDescBy
          (fun nc => (if pyUpper variant = "A" then Candidate.localScoreV1
            else Candidate.localScoreV2) nc.cand)
          (normalizeScores [c]
            (if pyUpper variant = "A" then Candidate.localScoreV1
              else Candidate.localScoreV2)))) := rfl
  rw [hstep, normalizeScores_single]
  rfl

theorem round2_hundred : round2 100 = 100 := by
  with_unfolding_all rfl

theorem provisionalItems_single (nc : NormedCandidate) (h : nc.norm = 1) :
    provisionalItems [nc] =
      [{ id := nc.cand.id, probability := 100, rest := nc.cand.rest }] := by
  unfold provisionalItems provisionalAux
  simp only [List.length_cons, List.length_nil]
  have harith : (3 / 5 * nc.norm +
      2 / 5 * ((((max 1 1 : ℕ) : ℚ) - 1 + 1) / ((max 1 1 : ℕ) : ℚ))) * 100 =
      100 := by
    rw [h]
    norm_num
  rw [harith, round2_hundred]
  rfl

theorem final_llm_rerank_short (e k m : Bool) (reply : Option String)
    (results : List Item) (topK : ℕ) (h : results.length ≤ 1) :
    final_llm_rerank e k m reply results topK =
      ⟨results.take topK, false⟩ := by
  unfold final_llm_rerank
  rw [if_pos (Or.inr (Or.inr (Or.inr h)))]

/-- C7: when the pipeline yields exactly one candidate, the final LLM rerank
issues no Gemini call and the single returned item has probability 100 (its
min-max normalized score collapses to 1 and its rank weight is 1). -/
theorem claim_C7_single_candidate (rawQuery : String) (ff : Option String)
    (variant : String) (c : Candidate) (e k m : Bool)
    (reply : Option String) :
    (searchRespond rawQuery ff variant [c] e k m reply).2 = false ∧
    (searchRespond rawQuery ff variant [c] e k m reply).1.results.map
      Item.probability = [100] := by
  simp only [searchRespond]
  rw [select_final_results_single, provisionalItems_single _ rfl,
    final_llm_rerank_short _ _ _ _ _ _ (by simp)]
  constructor
  · rfl
  · simp [TOP_K, sortDescBy, insertDescBy]

/-! ## Final-ranker fill lemmas (C5) -/

theorem set_get_self {α : Type} : ∀ (l : List α) (j : ℕ) (a : α),
    l.get? j = some a → l.set j a = l := by
  intro l
  induction l with
  | nil => intro j a h; cases h
  | cons x xs ih =>
      intro j a h
      cases j with
      | zero =>
          cases h
          rfl
      | succ n =>
          simp only [List.set_cons_succ]
          rw [ih n a h]

theorem idMapFn_some : ∀ (store : List Item) (s : String) (j : ℕ),
    idMapFn store s = some j →
    ∃ it, store.get? j = some it ∧ it.id = s := by
  intro store
  induction store with
  | nil => intro s j h; cases h
  | cons x xs ih =>
      intro s j h
      simp only [idMapFn] at h
      cases hr : idMapFn xs s with
      | some j0 =>
          rw [hr] at h
          cases h
          obtain ⟨it, h1, h2⟩ := ih s j0 hr
          exact ⟨it, h1, h2⟩
      | none =>
          rw [hr] at h
          by_cases he : s = x.id
          · rw [if_pos he] at h
            cases h
            exact ⟨x, rfl, he.symm⟩
          · rw [if_neg he] at h
            cases h

theorem idMapFn_isSome : ∀ (store : List Item) (s : String),
    s ∈ store.map Item.id → ∃ j, idMapFn store s = some j := by
  intro store
  induction store with
  | nil => intro s h; cases h
  | cons x xs ih =>
      intro s h
      simp only [idMapFn]
      cases hr : idMapFn xs s with
      | some j0 => exact ⟨j0 + 1, rfl⟩
      | none =>
          rcases List.mem_cons.mp h with h0 | hmem
          · exact ⟨0, by rw [if_pos h0]⟩
          · obtain ⟨j, hj⟩ := ih s hmem
            rw [hj] at hr
            cases hr

theorem ids_set (store : List Item) (j : ℕ) (it : Item) (p : ℚ)
    (h : store.get? j = some it) :
    (store.set j (setProb it p)).map Item.id = store.map Item.id := by
  rw [List.map_set]
  apply set_get_self
  rw [List.get?_map, h]
  rfl

theorem applyRanked_cons_some (store : List Item) (refs : List ℕ)
    (i : String) (sc : ℚ) (rest : List (String × ℚ)) (j : ℕ) (it : Item)
    (hj : idMapFn store i = some j) (hget : store.get? j = some it) :
    applyRanked store refs ((i, sc) :: rest) =
      applyRanked (store.set j (setProb it (round2 sc))) (refs ++ [j]) rest := by
  have hred : (match store.get? j with
      | some it0 =>
          applyRanked (store.set j (setProb it0 (round2 sc))) (refs ++ [j])
            rest
      | none => applyRanked store refs rest) =
      applyRanked (store.set j (setProb it (round2 sc))) (refs ++ [j]) rest :=
    by rw [hget]
  show (match idMapFn store i with
      | some j =>
          match store.get? j with
          | some it0 =>
              applyRanked (store.set j (setProb it0 (round2 sc))) (refs ++ [j])
                rest
          | none => applyRanked store refs rest
      | none => applyRanked store refs rest) = _
  rw [hj]
  exact hred

theorem applyRanked_cons_none (store : List Item) (refs : List ℕ)
    (i : String) (sc : ℚ) (rest : List (String × ℚ))
    (hj : idMapFn store i = none) :
    applyRanked store refs ((i, sc) :: rest) = applyRanked store refs rest := by
  show (match idMapFn store i with
      | some j =>
          match store.get? j with
          | some it0 =>
              applyRanked (store.set j (setProb it0 (round2 sc))) (refs ++ [j])
                rest
          | none => applyRanked store refs rest
      | none => applyRanked store refs rest) = _
  rw [hj]

theorem applyRanked_ids : ∀ (ranked : List (String × ℚ)) (store : List Item)
    (refs : List ℕ),
    (applyRanked store refs ranked).1.map Item.id = store.map Item.id := by
  intro ranked
  induction ranked with
  | nil => intro store refs; rfl
  | cons p rest ih =>
      intro store refs
      obtain ⟨i, sc⟩ := p
      cases hj : idMapFn store i with
      | none =>
          rw [applyRanked_cons_none store refs i sc rest hj]
          exact ih store refs
      | some j =>
          obtain ⟨it, hget, _⟩ := idMapFn_some store i j hj
          rw [applyRanked_cons_some store refs i sc rest j it hj hget]
          rw [ih _ _]
          exact ids_set store j it (round2 sc) hget

theorem applyRanked_untouched :
    ∀ (ranked : List (String × ℚ)) (store : List Item) (refs : List ℕ)
      (j : ℕ) (it : Item),
    store.get? j = some it → it.id ∉ ranked.map Prod.fst →
    (applyRanked store refs ranked).1.get? j = some it := by
  intro ranked
  induction ranked with
  | nil => intro store refs j it h _; exact h
  | cons p rest ih =>
      intro store refs j it h hnot
      obtain ⟨i, sc⟩ := p
      rw [List.map_cons, List.mem_cons] at hnot
      push_neg at hnot
      obtain ⟨hne, hnot2⟩ := hnot
      cases hj' : idMapFn store i with
      | none =>
          rw [applyRanked_cons_none store refs i sc rest hj']
          exact ih store refs j it h hnot2
      | some j' =>
          obtain ⟨it2, hit2, hid2⟩ := idMapFn_some store i j' hj'
          rw [applyRanked_cons_some store refs i sc rest j' it2 hj' hit2]
          have hjj : j' ≠ j := by
            intro e
            rw [e, h] at hit2
            cases hit2
            exact hne hid2
          refine ih _ _ j it ?_ hnot2
          rw [List.get?_set_ne _ _ hjj]
          exact h

theorem find?_eq_of_idMapFn (store : List Item)
    (hnd : (store.map Item.id).Nodup) (s : String) (j : ℕ) (it : Item)
    (hj : idMapFn store s = some j) (hget : store.get? j = some it) :
    store.find? (fun r => r.id = s) = some it := by
  obtain ⟨it2, hget2, hid2⟩ := idMapFn_some store s j hj
  rw [hget] at hget2
  cases hget2
  have hmem : it ∈ store := List.get?_mem hget
  have hsome : (store.find? (fun r => r.id = s)).isSome := by
    rw [List.find?_isSome]
    exact ⟨it, hmem, by simp [hid2]⟩
  cases hf : store.find? (fun r => r.id = s) with
  | none => rw [hf] at hsome; cases hsome
  | some it3 =>
      have hid3 : it3.id = s := by
        have := List.find?_some hf
        simpa using this
      have hmem3 : it3 ∈ store := List.mem_of_find?_eq_some hf
      have := List.inj_on_of_nodup_map hnd hmem3 hmem (by rw [hid3, hid2])
      rw [this]

theorem find?_set_same_id (s : String) :
    ∀ (store : List Item) (j : ℕ) (it0 it' : Item),
    store.get? j = some it0 → it'.id = it0.id → it0.id ≠ s →
    (store.set j it').find? (fun r => r.id = s) =
      store.find? (fun r => r.id = s) := by
  intro store
  induction store with
  | nil => intro j it0 it' h; cases h
  | cons x xs ih =>
      intro j it0 it' hget hid hne
      cases j with
      | zero =>
          cases hget
          simp only [List.set_cons_zero]
          rw [List.find?_cons, List.find?_cons]
          rw [show (decide (it'.id = s)) = false by simp [hid, hne]]
          rw [show (decide (x.id = s)) = false by simp [hne]]
      | succ n =>
          simp only [List.set_cons_succ, List.find?_cons]
          cases hd : decide (x.id = s) with
          | true => rfl
          | false => exact ih n it0 it' hget hid hne

theorem applyRanked_refs_len :
    ∀ (ranked : List (String × ℚ)) (store : List Item) (refs : List ℕ),
    (∀ p ∈ ranked, p.1 ∈ store.map Item.id) →
    (applyRanked store refs ranked).2.length = refs.length + ranked.length := by
  intro ranked
  induction ranked with
  | nil => intro store refs _; simp [applyRanked]
  | cons p rest ih =>
      intro store refs hmatch
      obtain ⟨i, sc⟩ := p
      obtain ⟨j, hj⟩ := idMapFn_isSome store i
        (hmatch (i, sc) (List.mem_cons_self _ _))
      obtain ⟨it, hget, _⟩ := idMapFn_some store i j hj
      rw [applyRanked_cons_some store refs i sc rest j it hj hget]
      rw [ih _ _ ?_]
      · simp only [List.length_append, List.length_cons, List.length_nil]
        omega
      · intro q hq
        rw [ids_set store j it (round2 sc) hget]
        exact hmatch q (List.mem_cons_of_mem _ hq)

theorem finalVals_append (store : List Item) (r1 r2 : List ℕ) :
    finalVals store (r1 ++ r2) = finalVals store r1 ++ finalVals store r2 := by
  unfold finalVals
  rw [List.filterMap_append]

theorem matchedItemsSpec_congr (store store' : List Item)
    (ranked : List (String × ℚ))
    (h : ∀ p ∈ ranked, store'.find? (fun r => r.id = p.1) =
      store.find? (fun r => r.id = p.1)) :
    matchedItemsSpec store' ranked = matchedItemsSpec store ranked := by
  unfold matchedItemsSpec
  apply List.filterMap_congr
  intro p hp
  rw [h p hp]

theorem applyRanked_spec :
    ∀ (ranked : List (String × ℚ)) (store : List Item) (refs : List ℕ),
    (store.map Item.id).Nodup →
    (ranked.map Prod.fst).Nodup →
    (∀ p ∈ ranked, p.1 ∈ store.map Item.id) →
    finalVals (applyRanked store refs ranked).1
        (applyRanked store refs ranked).2 =
      finalVals (applyRanked store refs ranked).1 refs ++
        matchedItemsSpec store ranked := by
  intro ranked
  induction ranked with
  | nil =>
      intro store refs _ _ _
      simp [applyRanked, matchedItemsSpec]
  | cons p rest ih =>
      intro store refs hnd hrnd hmatch
      obtain ⟨i, sc⟩ := p
      rw [List.map_cons, List.nodup_cons] at hrnd
      obtain ⟨hi, hrest_nd⟩ := hrnd
      obtain ⟨j, hj⟩ := idMapFn_isSome store i
        (hmatch (i, sc) (List.mem_cons_self _ _))
      obtain ⟨it, hget, hid⟩ := idMapFn_some store i j hj
      rw [applyRanked_cons_some store refs i sc rest j it hj hget]
      have hjlt : j < store.length := by
        rcases List.get?_eq_some.mp hget with ⟨hlt, _⟩
        exact hlt
      have hids' : (store.set j (setProb it (round2 sc))).map Item.id =
          store.map Item.id := ids_set store j it (round2 sc) hget
      have hmatch' : ∀ q ∈ rest,
          q.1 ∈ (store.set j (setProb it (round2 sc))).map Item.id := by
        intro q hq
        rw [hids']
        exact hmatch q (List.mem_cons_of_mem _ hq)
      have IH := ih (store.set j (setProb it (round2 sc))) (refs ++ [j])
        (by rw [hids']; exact hnd) hrest_nd hmatch'
      rw [IH]
      rw [finalVals_append]
      have hsetget : (store.set j (setProb it (round2 sc))).get? j =
          some (setProb it (round2 sc)) :=
        List.get?_set_eq_of_lt _ (by simpa using hjlt)
      have hnotin : (setProb it (round2 sc)).id ∉ rest.map Prod.fst := by
        show it.id ∉ rest.map Prod.fst
        rw [hid]
        exact hi
      have hsingle : finalVals
          (applyRanked (store.set j (setProb it (round2 sc))) (refs ++ [j])
            rest).1 [j] = [setProb it (round2 sc)] := by
        unfold finalVals
        simp only [List.filterMap_cons, List.filterMap_nil]
        rw [applyRanked_untouched rest _ (refs ++ [j]) j _ hsetget hnotin]
      rw [hsingle]
      have hspec' : matchedItemsSpec (store.set j (setProb it (round2 sc)))
          rest = matchedItemsSpec store rest := by
        apply matchedItemsSpec_congr
        intro q hq
        apply find?_set_same_id q.1 store j it (setProb it (round2 sc)) hget
          rfl
        rw [hid]
        intro e
        exact hi (List.mem_map.mpr ⟨q, hq, e.symm⟩)
      rw [hspec']
      have hhead : matchedItemsSpec store ((i, sc) :: rest) =
          setProb it (round2 sc) :: matchedItemsSpec store rest := by
        unfold matchedItemsSpec
        rw [List.filterMap_cons]
        rw [find?_eq_of_idMapFn store hnd i j it hj hget]
        rfl
      rw [hhead]
      simp

theorem matchedItemsSpec_ids (results : List Item) :
    ∀ ranked : List (String × ℚ),
    (∀ p ∈ ranked, p.1 ∈ results.map Item.id) →
    (matchedItemsSpec results ranked).map Item.id = ranked.map Prod.fst := by
  intro ranked
  induction ranked with
  | nil => intro _; rfl
  | cons p rest ih =>
      intro hmatch
      have hp := hmatch p (List.mem_cons_self _ _)
      obtain ⟨x, hxmem, hxid⟩ := List.mem_map.mp hp
      have hsome : (results.find? (fun r => r.id = p.1)).isSome := by
        rw [List.find?_isSome]
        exact ⟨x, hxmem, by simp [hxid]⟩
      cases hf : results.find? (fun r => r.id = p.1) with
      | none => rw [hf] at hsome; cases hsome
      | some it =>
          have hfid : it.id = p.1 := by
            have := List.find?_some hf
            simpa using this
          unfold matchedItemsSpec
          rw [List.filterMap_cons, hf]
          show (setProb it (round2 p.2) :: matchedItemsSpec results rest).map
            Item.id = p.1 :: rest.map Prod.fst
          rw [List.map_cons]
          rw [ih (fun q hq => hmatch q (List.mem_cons_of_mem _ hq))]
          show it.id :: _ = _
          rw [hfid]

theorem matchedItemsSpec_length (results : List Item)
    (ranked : List (String × ℚ))
    (hmatch : ∀ p ∈ ranked, p.1 ∈ results.map Item.id) :
    (matchedItemsSpec results ranked).length = ranked.length := by
  have := matchedItemsSpec_ids results ranked hmatch
  have h1 : (matchedItemsSpec results ranked).length =
      ((matchedItemsSpec results ranked).map Item.id).length := by
    rw [List.length_map]
  rw [h1, this, List.length_map]

theorem filter_eq_of_agree_outside (bad : List String) :
    ∀ (l2 l1 : List Item),
    l1.map Item.id = l2.map Item.id →
    (∀ j it, l2.get? j = some it → it.id ∉ bad → l1.get? j = some it) →
    l1.filter (fun r => decide (r.id ∉ bad)) =
      l2.filter (fun r => decide (r.id ∉ bad)) := by
  intro l2
  induction l2 with
  | nil =>
      intro l1 hmap _
      cases l1 with
      | nil => rfl
      | cons x xs => simp at hmap
  | cons y ys ih =>
      intro l1 hmap hagree
      cases l1 with
      | nil => simp at hmap
      | cons x xs =>
          simp only [List.map_cons, List.cons.injEq] at hmap
          obtain ⟨hhead, htail⟩ := hmap
          have htl : xs.filter (fun r => decide (r.id ∉ bad)) =
              ys.filter (fun r => decide (r.id ∉ bad)) := by
            apply ih xs htail
            intro j it hget hnb
            exact hagree (j + 1) it hget hnb
          by_cases hb : y.id ∈ bad
          · have hx : decide (x.id ∉ bad) = false := by
              simp [hhead, hb]
            have hy : decide (y.id ∉ bad) = false := by simp [hb]
            rw [List.filter_cons, List.filter_cons, hx, hy]
            simpa using htl
          · have hxy : x = y := by
              have := hagree 0 y rfl hb
              simpa using this
            have hx : decide (x.id ∉ bad) = true := by
              simp [hhead, hb]
            have hy : decide (y.id ∉ bad) = true := by simp [hb]
            rw [List.filter_cons, List.filter_cons, hx, hy]
            simp only [ite_true]
            rw [hxy, htl]

theorem fillLoop_spec :
    ∀ (l : List Item) (topK : ℕ) (final : List Item),
    final.length ≤ topK →
    (l.map Item.id).Nodup →
    (∀ r ∈ l, ∀ v ∈ final, r = v ↔ r.id = v.id) →
    fillLoop topK final l = final ++
      ((l.filter (fun r => decide (r.id ∉ final.map Item.id))).map
        (fun r => setProb r (round2 (pyOr r.probability 50)))).take
        (topK - final.length) := by
  intro l
  induction l with
  | nil =>
      intro topK final _ _ _
      simp [fillLoop]
  | cons r rest ih =>
      intro topK final hlen hnd hiff
      rw [List.map_cons, List.nodup_cons] at hnd
      obtain ⟨hrid, hrest_nd⟩ := hnd
      have hiff_r := hiff r (List.mem_cons_self _ _)
      have hiff_rest := fun x hx v hv =>
        hiff x (List.mem_cons_of_mem r hx) v hv
      by_cases hfull : final.length = topK
      · rw [show fillLoop topK final (r :: rest) = final by
          simp only [fillLoop]
          rw [if_pos hfull]]
        rw [hfull, Nat.sub_self, List.take_zero, List.append_nil]
      · have hlt : final.length < topK := lt_of_le_of_ne hlen hfull
        by_cases hmem : r ∈ final
        · have hidmem : r.id ∈ final.map Item.id :=
            List.mem_map_of_mem Item.id hmem
          rw [show fillLoop topK final (r :: rest) = fillLoop topK final rest
            by
              simp only [fillLoop]
              rw [if_neg hfull, if_pos hmem]]
          rw [ih topK final hlen hrest_nd hiff_rest]
          have : decide (r.id ∉ final.map Item.id) = false := by
            simp [hidmem]
          rw [List.filter_cons, this]
          simp
        · have hidnot : r.id ∉ final.map Item.id := by
            intro hin
            obtain ⟨v, hvmem, hvid⟩ := List.mem_map.mp hin
            exact hmem (((hiff_r v hvmem).mpr hvid.symm) ▸ hvmem)
          rw [show fillLoop topK final (r :: rest) =
              fillLoop topK
                (final ++ [setProb r (round2 (pyOr r.probability 50))]) rest
            by
              simp only [fillLoop]
              rw [if_neg hfull, if_neg hmem]]
          have hlen' : (final ++
              [setProb r (round2 (pyOr r.probability 50))]).length ≤ topK := by
            simp only [List.length_append, List.length_cons, List.length_nil]
            omega
          have hiff' : ∀ x ∈ rest,
              ∀ v ∈ final ++ [setProb r (round2 (pyOr r.probability 50))],
              x = v ↔ x.id = v.id := by
            intro x hx v hv
            rcases List.mem_append.mp hv with hv1 | hv2
            · exact hiff_rest x hx v hv1
            · rw [List.mem_singleton.mp hv2]
              have hxid : x.id ≠ r.id := by
                intro e
                exact hrid (e ▸ List.mem_map_of_mem Item.id hx)
              constructor
              · intro e
                exact absurd (congrArg Item.id e) hxid
              · intro e
                exact absurd e hxid
          rw [ih topK _ hlen' hrest_nd hiff']
          have hfilter : rest.filter (fun x => decide (x.id ∉
              (final ++ [setProb r (round2 (pyOr r.probability 50))]).map
                Item.id)) =
              rest.filter (fun x => decide (x.id ∉ final.map Item.id)) := by
            apply List.filter_congr
            intro x hx
            have hxid : x.id ≠ r.id := by
              intro e
              exact hrid (e ▸ List.mem_map_of_mem Item.id hx)
            have hsev : (final ++
                [setProb r (round2 (pyOr r.probability 50))]).map Item.id =
                final.map Item.id ++ [r.id] := by
              simp [setProb]
            rw [hsev, decide_eq_decide]
            simp [List.mem_append, hxid]
          rw [hfilter]
          have hkeep : decide (r.id ∉ final.map Item.id) = true := by
            simp [hidnot]
          rw [List.filter_cons, hkeep]
          simp only [ite_true, List.map_cons]
          have hsub : topK - final.length = (topK - (final.length + 1)) + 1 :=
            by omega
          rw [hsub, List.take_succ_cons]
          simp only [List.length_append, List.length_cons, List.length_nil]
          rw [List.append_assoc]
          rfl

theorem final_llm_rerank_run (raw : String) (results : List Item)
    (topK : ℕ) (hlen : 1 < results.length)
    (hne : parseRankedItems (pyStrip raw) ≠ []) :
    final_llm_rerank true true true (some raw) results topK =
      (if (applyRanked results []
            ((parseRankedItems (pyStrip raw)).take topK)).2.length < topK then
        ⟨fillLoop topK
          (finalVals
            (applyRanked results []
              ((parseRankedItems (pyStrip raw)).take topK)).1
            (applyRanked results []
              ((parseRankedItems (pyStrip raw)).take topK)).2)
          (applyRanked results []
            ((parseRankedItems (pyStrip raw)).take topK)).1, true⟩
      else
        ⟨finalVals
          (applyRanked results []
            ((parseRankedItems (pyStrip raw)).take topK)).1
          (applyRanked results []
            ((parseRankedItems (pyStrip raw)).take topK)).2, true⟩) := by
  have hemp : results.isEmpty = false := by
    cases results with
    | nil => simp at hlen
    | cons a l => rfl
  have hpe : (parseRankedItems (pyStrip raw)).isEmpty = false := by
    cases hp : parseRankedItems (pyStrip raw) with
    | nil => exact absurd hp hne
    | cons a l => rfl
  unfold final_llm_rerank
  rw [if_neg (by
    simp only [not_or, hemp]
    refine ⟨by simp, by simp, by simp, by omega⟩)]
  rw [if_neg (by simp)]
  show (if (parseRankedItems (pyStrip raw)).isEmpty = true then _ else _) = _
  rw [if_neg (by rw [hpe]; simp)]

/-- C5 counterexample: with items A, B, C carrying provisional probabilities
80, 70, 60 and a reply matching only A, the two fill items are returned with
probabilities 70 and 60 — carried forward, not 50 as the claim states. -/
theorem claim_C5_counterexample :
    (final_llm_rerank true true true (some "A | 92")
        [⟨"A", 80, "a"⟩, ⟨"B", 70, "b"⟩, ⟨"C", 60, "c"⟩] 3).items.map
      Item.probability = [92, 70, 60] ∧ (70 : ℚ) ≠ 50 := by
  constructor
  · with_unfolding_all rfl
  · norm_num

/-- C5 (amended): when the final ranker parses fewer than K valid
`<id> | <score>` lines, all matching distinct input items, the returned list
is the matched items (with their clamped scores) followed by the remaining
original items in their given input order — each fill item carrying forward
its previous probability (with 50 substituted when it is unset/zero), not a
flat 50. -/
theorem claim_C5_fill_carries_probability (results : List Item) (raw : String)
    (topK : ℕ) (hids : (results.map Item.id).Nodup)
    (hlen : 1 < results.length)
    (hne : parseRankedItems (pyStrip raw) ≠ [])
    (hcnt : (parseRankedItems (pyStrip raw)).length < topK)
    (hrdn : ((parseRankedItems (pyStrip raw)).map Prod.fst).Nodup)
    (hmatch : ∀ p ∈ parseRankedItems (pyStrip raw),
      p.1 ∈ results.map Item.id) :
    (final_llm_rerank true true true (some raw) results topK).items =
      matchedItemsSpec results (parseRankedItems (pyStrip raw)) ++
        fillItemsSpec results
          ((parseRankedItems (pyStrip raw)).map Prod.fst)
          (topK - (parseRankedItems (pyStrip raw)).length) := by
  have htake : (parseRankedItems (pyStrip raw)).take topK =
      parseRankedItems (pyStrip raw) :=
    List.take_all_of_le (le_of_lt hcnt)
  have hreflen : (applyRanked results []
      ((parseRankedItems (pyStrip raw)).take topK)).2.length =
      (parseRankedItems (pyStrip raw)).length := by
    rw [htake]
    rw [applyRanked_refs_len _ _ _ hmatch]
    simp
  rw [final_llm_rerank_run raw results topK hlen hne]
  rw [if_pos (by rw [hreflen]; exact hcnt)]
  simp only
  rw [htake]
  have hspec := applyRanked_spec (parseRankedItems (pyStrip raw)) results []
    hids hrdn hmatch
  have hnil : finalVals
      (applyRanked results [] (parseRankedItems (pyStrip raw))).1 [] = [] :=
    rfl
  rw [hnil, List.nil_append] at hspec
  rw [hspec]
  have hids1 : ((applyRanked results []
      (parseRankedItems (pyStrip raw))).1.map Item.id).Nodup := by
    rw [applyRanked_ids]
    exact hids
  have hmlen : (matchedItemsSpec results
      (parseRankedItems (pyStrip raw))).length =
      (parseRankedItems (pyStrip raw)).length :=
    matchedItemsSpec_length results _ hmatch
  have hmids : (matchedItemsSpec results
      (parseRankedItems (pyStrip raw))).map Item.id =
      (parseRankedItems (pyStrip raw)).map Prod.fst :=
    matchedItemsSpec_ids results _ hmatch
  have hsub : ∀ v ∈ matchedItemsSpec results (parseRankedItems (pyStrip raw)),
      v ∈ (applyRanked results [] (parseRankedItems (pyStrip raw))).1 := by
    intro v hv
    rw [← hspec] at hv
    exact finalVals_subset _ _ v hv
  have hiff : ∀ r ∈ (applyRanked results []
        (parseRankedItems (pyStrip raw))).1,
      ∀ v ∈ matchedItemsSpec results (parseRankedItems (pyStrip raw)),
      r = v ↔ r.id = v.id := by
    intro r hr v hv
    constructor
    · intro e
      rw [e]
    · intro e
      exact List.inj_on_of_nodup_map hids1 hr (hsub v hv) e
  rw [fillLoop_spec _ topK _ (by rw [hmlen]; exact le_of_lt hcnt) hids1 hiff]
  rw [hmids, hmlen]
  have hfilter : (applyRanked results []
        (parseRankedItems (pyStrip raw))).1.filter
      (fun r => decide (r.id ∉
        (parseRankedItems (pyStrip raw)).map Prod.fst)) =
      results.filter (fun r => decide (r.id ∉
        (parseRankedItems (pyStrip raw)).map Prod.fst)) := by
    apply filter_eq_of_agree_outside _ results _
      (applyRanked_ids _ _ _)
    intro j it hget hnb
    exact applyRanked_untouched _ results [] j it hget hnb
  rw [hfilter]
  rfl

/-- Witness for C5 (amended) at a concrete run: one of three items matched,
two fill items carrying probabilities 70 and 60. -/
theorem claim_C5_fill_carries_probability_witness :
    (final_llm_rerank true true true (some "A | 92")
        [⟨"A", 80, "a"⟩, ⟨"B", 70, "b"⟩, ⟨"C", 60, "c"⟩] 3).items =
      matchedItemsSpec [⟨"A", 80, "a"⟩, ⟨"B", 70, "b"⟩, ⟨"C", 60, "c"⟩]
          (parseRankedItems (pyStrip "A | 92")) ++
        fillItemsSpec [⟨"A", 80, "a"⟩, ⟨"B", 70, "b"⟩, ⟨"C", 60, "c"⟩]
          ((parseRankedItems (pyStrip "A | 92")).map Prod.fst)
          (3 - (parseRankedItems (pyStrip "A | 92")).length) :=
  claim_C5_fill_carries_probability
    [⟨"A", 80, "a"⟩, ⟨"B", 70, "b"⟩, ⟨"C", 60, "c"⟩] "A | 92" 3
    (by decide) (by decide)
    (by with_unfolding_all decide)
    (by with_unfolding_all decide)
    (by with_unfolding_all decide)
    (by
      intro p hp
      have hr : parseRankedItems (pyStrip "A | 92") = [("A", 92)] := by
        with_unfolding_all rfl
      rw [hr] at hp
      rcases List.mem_singleton.mp hp with rfl
      decide)

/-- Witness for C6 at concrete inputs: the disabled short-circuit returns the
input unchanged, and a successful rerank of two candidates is a permutation
of its input. -/
theorem claim_C6_rerank_permutation_witness :
    rerank_with_gemini false true true (some "B\nA")
        [⟨"A", "x"⟩, ⟨"B", "y"⟩] = [⟨"A", "x"⟩, ⟨"B", "y"⟩] ∧
    List.Perm
      (rerank_with_gemini true true true (some "B\nA")
        [⟨"A", "x"⟩, ⟨"B", "y"⟩])
      [⟨"A", "x"⟩, ⟨"B", "y"⟩] :=
  ⟨(claim_C6_rerank_permutation false true true (some "B\nA")
      [⟨"A", "x"⟩, ⟨"B", "y"⟩]).1 (Or.inl rfl),
   (claim_C6_rerank_permutation true true true (some "B\nA")
      [⟨"A", "x"⟩, ⟨"B", "y"⟩]).2.1 (by decide)⟩

end TAS
